import Mathlib

/-!
# Verification of the core of `app.py` (Viral Shorts Title Generator)

This file shallowly embeds the two core functions of the repository's single
source file `app.py`:

* `parse_srt` (lines 50-62): decode bytes as UTF-8, then three `re.sub`
  passes (SRT cue headers, `<...>` tags, whitespace-only line contents),
  then `"\n".join(text.splitlines())`;
* `get_engineered_prompt` (lines 64-117): an f-string template with the
  transcript spliced in;

together with the generate-button guard (lines 205-212).

Text is modelled as `List Char`, bytes as `List Nat` (each element a byte).
The scanning behaviour of CPython's `re.sub` (leftmost match, greedy
quantifiers with backtracking, empty-match handling) is modelled by direct
recursive scanners specialised to the three fixed patterns of `app.py`.
Python's `\s` (= `str.isspace`) is the full finite Unicode whitespace set and
is modelled exactly; `str.splitlines` boundaries likewise; Python's `\d` is
the full Unicode decimal-digit category Nd, modelled exactly by its table of
code-point ranges.
-/

namespace SrtApp

/-- The 62 code-point ranges of Unicode general category Nd (Unicode 14.0,
the table CPython 3.11's `re` module matches `\d` against): 660 decimal
digits, ASCII `0`-`9` first, then Arabic-Indic `٠`-`٩` and the other
scripts' decimal digits. -/
def ndRanges : List (Nat × Nat) :=
  [(0x30, 0x39), (0x660, 0x669), (0x6f0, 0x6f9), (0x7c0, 0x7c9), (0x966, 0x96f),
   (0x9e6, 0x9ef), (0xa66, 0xa6f), (0xae6, 0xaef), (0xb66, 0xb6f), (0xbe6, 0xbef),
   (0xc66, 0xc6f), (0xce6, 0xcef), (0xd66, 0xd6f), (0xde6, 0xdef), (0xe50, 0xe59),
   (0xed0, 0xed9), (0xf20, 0xf29), (0x1040, 0x1049), (0x1090, 0x1099), (0x17e0, 0x17e9),
   (0x1810, 0x1819), (0x1946, 0x194f), (0x19d0, 0x19d9), (0x1a80, 0x1a89), (0x1a90, 0x1a99),
   (0x1b50, 0x1b59), (0x1bb0, 0x1bb9), (0x1c40, 0x1c49), (0x1c50, 0x1c59), (0xa620, 0xa629),
   (0xa8d0, 0xa8d9), (0xa900, 0xa909), (0xa9d0, 0xa9d9), (0xa9f0, 0xa9f9), (0xaa50, 0xaa59),
   (0xabf0, 0xabf9), (0xff10, 0xff19), (0x104a0, 0x104a9), (0x10d30, 0x10d39),
   (0x11066, 0x1106f), (0x110f0, 0x110f9), (0x11136, 0x1113f), (0x111d0, 0x111d9),
   (0x112f0, 0x112f9), (0x11450, 0x11459), (0x114d0, 0x114d9), (0x11650, 0x11659),
   (0x116c0, 0x116c9), (0x11730, 0x11739), (0x118e0, 0x118e9), (0x11950, 0x11959),
   (0x11c50, 0x11c59), (0x11d50, 0x11d59), (0x11da0, 0x11da9), (0x16a60, 0x16a69),
   (0x16ac0, 0x16ac9), (0x16b50, 0x16b59), (0x1d7ce, 0x1d7ff), (0x1e140, 0x1e149),
   (0x1e2f0, 0x1e2f9), (0x1e950, 0x1e959), (0x1fbf0, 0x1fbf9)]

/-- Python regex `\d`: any Unicode decimal digit (category Nd). -/
def isPyDigit (c : Char) : Bool :=
  ndRanges.any (fun p => p.1 ≤ c.toNat && c.toNat ≤ p.2)

/-- Python regex `\s` / `str.isspace` / `str.strip`: the exact set of
code points CPython treats as whitespace in text patterns. -/
def isPySpace (c : Char) : Bool :=
  ([0x9, 0xa, 0xb, 0xc, 0xd, 0x1c, 0x1d, 0x1e, 0x1f, 0x20, 0x85, 0xa0, 0x1680,
    0x2000, 0x2001, 0x2002, 0x2003, 0x2004, 0x2005, 0x2006, 0x2007, 0x2008,
    0x2009, 0x200a, 0x2028, 0x2029, 0x202f, 0x205f, 0x3000] : List Nat).contains c.toNat

/-- The exact set of code points `str.splitlines` breaks lines at
(`\r\n` is additionally treated as a single break by `splitlines` below). -/
def isLineBoundary (c : Char) : Bool :=
  ([0xa, 0xb, 0xc, 0xd, 0x1c, 0x1d, 0x1e, 0x85, 0x2028, 0x2029] : List Nat).contains c.toNat

/-! ## Step 1 of `parse_srt`: the cue-header pattern
`re.sub(r'\d+\n\d{2}:\d{2}:\d{2},\d{3} --> \d{2}:\d{2}:\d{2},\d{3}\n', '', s)` -/

/-- Character classes of the 30 characters
`\d{2}:\d{2}:\d{2},\d{3} --> \d{2}:\d{2}:\d{2},\d{3}\n` of the header pattern
that follow the `\d+\n` part. -/
def timeClasses : List (Char → Bool) :=
  [isPyDigit, isPyDigit, (· == ':'), isPyDigit, isPyDigit, (· == ':'), isPyDigit, isPyDigit,
   (· == ','), isPyDigit, isPyDigit, isPyDigit, (· == ' '), (· == '-'), (· == '-'), (· == '>'),
   (· == ' '), isPyDigit, isPyDigit, (· == ':'), isPyDigit, isPyDigit, (· == ':'), isPyDigit,
   isPyDigit, (· == ','), isPyDigit, isPyDigit, isPyDigit, (· == '\n')]

/-- Does `l` consist of exactly 30 characters matching `timeClasses`? -/
def timeCheck (l : List Char) : Bool :=
  l.length == 30 && (List.zipWith (fun f c => f c) timeClasses l).all id

/-- Match the time-range-plus-newline part of the header pattern at the head
of `l`; on success return the remainder of `l`. -/
def timeHead (l : List Char) : Option (List Char) :=
  if timeCheck (l.take 30) then some (l.drop 30) else none

/-- Match the whole header pattern `\d+\n<time> --> <time>\n` at the head of
`l` (with `\d+` greedy, which is equivalent to taking the maximal digit run
since a shorter run is necessarily followed by a digit, not `\n`);
on success return the remainder of `l`. -/
def headerMatch (l : List Char) : Option (List Char) :=
  if (l.takeWhile isPyDigit).isEmpty then none
  else
    match l.dropWhile isPyDigit with
    | c :: r => if c = '\n' then timeHead r else none
    | [] => none

theorem length_dropWhile_le (p : Char → Bool) (l : List Char) :
    (l.dropWhile p).length ≤ l.length := by
  induction l with
  | nil => simp
  | cons a t ih =>
    rw [List.dropWhile_cons]
    split
    · simp only [List.length_cons]
      omega
    · simp

theorem length_takeWhile_add_dropWhile (p : Char → Bool) (l : List Char) :
    (l.takeWhile p).length + (l.dropWhile p).length = l.length := by
  have h := congrArg List.length (List.takeWhile_append_dropWhile (p := p) (l := l))
  rw [List.length_append] at h
  exact h

theorem dropWhile_cons_length {p : Char → Bool} {l rest : List Char} {x : Char}
    (h : l.dropWhile p = x :: rest) : rest.length < l.length := by
  have hle := length_dropWhile_le p l
  rw [h] at hle
  simp only [List.length_cons] at hle
  omega

theorem dropWhile_cons_cons_length {p : Char → Bool} {l rest : List Char} {x y : Char}
    (h : l.dropWhile p = x :: y :: rest) : rest.length < l.length := by
  have hle := length_dropWhile_le p l
  rw [h] at hle
  simp only [List.length_cons] at hle
  omega

theorem timeHead_length {l r : List Char} (h : timeHead l = some r) :
    r.length ≤ l.length := by
  unfold timeHead at h
  split at h
  · cases h
    simp
  · cases h

theorem headerMatch_length {l r : List Char} (h : headerMatch l = some r) :
    r.length < l.length := by
  unfold headerMatch at h
  split at h
  · cases h
  · rename_i hne
    have hlen := length_takeWhile_add_dropWhile isPyDigit l
    have hpos : 0 < (l.takeWhile isPyDigit).length :=
      List.length_pos.mpr (by simpa using hne)
    split at h
    · rename_i c r' hdw
      split at h
      · have hth : r.length ≤ r'.length := timeHead_length h
        have hdwlen : (l.dropWhile isPyDigit).length = r'.length + 1 := by
          rw [hdw]
          simp
        omega
      · cases h
    · cases h

/-- Fuel-indexed version of the `stripHeaders` scan (the fuel, always
instantiated with the length of the list, only makes the recursion
structural so that the kernel can evaluate it). -/
def stripHeadersF : Nat → List Char → List Char
  | _, [] => []
  | 0, l => l
  | fuel + 1, c :: r =>
    match headerMatch (c :: r) with
    | some rest => stripHeadersF fuel rest
    | none => c :: stripHeadersF fuel r

/-- The scan underlying
`re.sub(r'\d+\n\d{2}:\d{2}:\d{2},\d{3} --> \d{2}:\d{2}:\d{2},\d{3}\n', '', s)`:
walk left to right; wherever the pattern matches, delete it and continue
after the match, otherwise keep the character. -/
def stripHeaders (l : List Char) : List Char := stripHeadersF l.length l

theorem stripHeadersF_congr :
    ∀ (fuel₁ fuel₂ : Nat) (l : List Char), l.length ≤ fuel₁ → l.length ≤ fuel₂ →
      stripHeadersF fuel₁ l = stripHeadersF fuel₂ l := by
  intro fuel₁
  induction fuel₁ with
  | zero =>
    intro fuel₂ l h₁ _
    have : l = [] := List.length_eq_zero.mp (Nat.le_zero.mp h₁)
    subst this
    cases fuel₂ <;> rfl
  | succ f ih =>
    intro fuel₂ l h₁ h₂
    cases l with
    | nil => cases fuel₂ <;> rfl
    | cons c r =>
      cases fuel₂ with
      | zero => simp at h₂
      | succ f₂ =>
        show stripHeadersF (f + 1) (c :: r) = stripHeadersF (f₂ + 1) (c :: r)
        unfold stripHeadersF
        cases hm : headerMatch (c :: r) with
        | some rest =>
          have hlt := headerMatch_length hm
          simp only [List.length_cons] at hlt h₁ h₂
          exact ih f₂ rest (by omega) (by omega)
        | none =>
          simp only [List.length_cons] at h₁ h₂
          exact congrArg (c :: ·) (ih f₂ r (by omega) (by omega))

/-- The defining recursion of `stripHeaders`. -/
theorem stripHeaders_eq (l : List Char) :
    stripHeaders l =
      match headerMatch l with
      | some rest => stripHeaders rest
      | none =>
        match l with
        | [] => []
        | c :: r => c :: stripHeaders r := by
  cases l with
  | nil => rfl
  | cons c r =>
    show stripHeadersF (r.length + 1) (c :: r) = _
    unfold stripHeadersF
    cases hm : headerMatch (c :: r) with
    | some rest =>
      have hlt := headerMatch_length hm
      simp only [List.length_cons] at hlt
      exact stripHeadersF_congr r.length rest.length rest (by omega) (le_refl _)
    | none => rfl

/-! ## Step 2 of `parse_srt`: the tag pattern `re.sub(r'<[^>]+>', '', s)` -/

/-- Match `<[^>]+>` at the head of `l`: a `'<'`, at least one character that
is not `'>'`, then the nearest `'>'`.  On success return the remainder. -/
def tagMatch (l : List Char) : Option (List Char) :=
  match l with
  | c :: c₂ :: cs =>
    if c = '<' then
      if c₂ = '>' then none
      else
        match (c₂ :: cs).dropWhile (fun x => x != '>') with
        | g :: rest => if g = '>' then some rest else none
        | [] => none
    else none
  | _ => none

theorem tagMatch_length {l r : List Char} (h : tagMatch l = some r) :
    r.length < l.length := by
  unfold tagMatch at h
  split at h
  · rename_i c c₂ cs
    split at h
    · split at h
      · cases h
      · split at h
        · rename_i g rest hdw
          split at h
          · cases h
            have := dropWhile_cons_length hdw
            simp only [List.length_cons] at this ⊢
            omega
          · cases h
        · cases h
    · cases h
  · cases h

/-- Fuel-indexed version of the `stripTags` scan. -/
def stripTagsF : Nat → List Char → List Char
  | _, [] => []
  | 0, l => l
  | fuel + 1, c :: r =>
    match tagMatch (c :: r) with
    | some rest => stripTagsF fuel rest
    | none => c :: stripTagsF fuel r

/-- The scan underlying `re.sub(r'<[^>]+>', '', s)`. -/
def stripTags (l : List Char) : List Char := stripTagsF l.length l

theorem stripTagsF_congr :
    ∀ (fuel₁ fuel₂ : Nat) (l : List Char), l.length ≤ fuel₁ → l.length ≤ fuel₂ →
      stripTagsF fuel₁ l = stripTagsF fuel₂ l := by
  intro fuel₁
  induction fuel₁ with
  | zero =>
    intro fuel₂ l h₁ _
    have : l = [] := List.length_eq_zero.mp (Nat.le_zero.mp h₁)
    subst this
    cases fuel₂ <;> rfl
  | succ f ih =>
    intro fuel₂ l h₁ h₂
    cases l with
    | nil => cases fuel₂ <;> rfl
    | cons c r =>
      cases fuel₂ with
      | zero => simp at h₂
      | succ f₂ =>
        show stripTagsF (f + 1) (c :: r) = stripTagsF (f₂ + 1) (c :: r)
        unfold stripTagsF
        cases hm : tagMatch (c :: r) with
        | some rest =>
          have hlt := tagMatch_length hm
          simp only [List.length_cons] at hlt h₁ h₂
          exact ih f₂ rest (by omega) (by omega)
        | none =>
          simp only [List.length_cons] at h₁ h₂
          exact congrArg (c :: ·) (ih f₂ r (by omega) (by omega))

/-- The defining recursion of `stripTags`. -/
theorem stripTags_eq (l : List Char) :
    stripTags l =
      match tagMatch l with
      | some rest => stripTags rest
      | none =>
        match l with
        | [] => []
        | c :: r => c :: stripTags r := by
  cases l with
  | nil => rfl
  | cons c r =>
    show stripTagsF (r.length + 1) (c :: r) = _
    unfold stripTagsF
    cases hm : tagMatch (c :: r) with
    | some rest =>
      have hlt := tagMatch_length hm
      simp only [List.length_cons] at hlt
      exact stripTagsF_congr r.length rest.length rest (by omega) (le_refl _)
    | none => rfl

/-! ## Step 3 of `parse_srt`:
`re.sub(r'^\s*$', '', s, flags=re.MULTILINE)`

In multiline mode `^` matches at the start of the string and right after each
`'\n'`; `$` matches at the end of the string and right before each `'\n'`.
At a `^` position the engine matches greedy `\s*` and backtracks to the
longest whitespace run after which `$` holds.  A nonempty match is deleted;
an empty match deletes nothing (the replacement is empty) and the scan
advances one character. -/

/-- Length of the leading whitespace run. -/
def wsRun (l : List Char) : Nat := (l.takeWhile isPySpace).length

/-- Does `$` (multiline) hold at this position of the original string? -/
def dollar (l : List Char) : Bool :=
  match l with
  | [] => true
  | c :: _ => c == '\n'

/-- Largest `k ≤ bound` such that `$` holds after dropping `k` characters
(tried greedily from `bound` downward, as the backtracking engine does). -/
def matchLenAux : Nat → List Char → Option Nat
  | 0, l => if dollar l then some 0 else none
  | k + 1, l => if dollar (l.drop (k + 1)) then some (k + 1) else matchLenAux k l

/-- Length of the `^\s*$` match attempted at a `^` position, if any. -/
def matchLen (l : List Char) : Option Nat := matchLenAux (wsRun l) l

/-- Fuel-indexed version of the `blankSub` scan. -/
def blankSubF : Nat → Bool → List Char → List Char
  | _, _, [] => []
  | 0, _, l => l
  | fuel + 1, bol, c :: r =>
    if bol then
      match matchLen (c :: r) with
      | some (k + 1) => blankSubF fuel (((c :: r).getD k ' ') == '\n') ((c :: r).drop (k + 1))
      | _ => c :: blankSubF fuel (c == '\n') r
    else c :: blankSubF fuel (c == '\n') r

/-- The scan underlying `re.sub(r'^\s*$', '', s, flags=re.MULTILINE)`.
`bol` records whether the current position is a `^` position of the original
string (start of string, or the previous original character was `'\n'`). -/
def blankSub (bol : Bool) (l : List Char) : List Char := blankSubF l.length bol l

theorem blankSubF_congr :
    ∀ (fuel₁ fuel₂ : Nat) (bol : Bool) (l : List Char), l.length ≤ fuel₁ → l.length ≤ fuel₂ →
      blankSubF fuel₁ bol l = blankSubF fuel₂ bol l := by
  intro fuel₁
  induction fuel₁ with
  | zero =>
    intro fuel₂ bol l h₁ _
    have : l = [] := List.length_eq_zero.mp (Nat.le_zero.mp h₁)
    subst this
    cases fuel₂ <;> rfl
  | succ f ih =>
    intro fuel₂ bol l h₁ h₂
    cases l with
    | nil => cases fuel₂ <;> rfl
    | cons c r =>
      cases fuel₂ with
      | zero => simp at h₂
      | succ f₂ =>
        show blankSubF (f + 1) bol (c :: r) = blankSubF (f₂ + 1) bol (c :: r)
        unfold blankSubF
        simp only [List.length_cons] at h₁ h₂
        cases bol with
        | false =>
          simp only [Bool.false_eq_true, if_false]
          exact congrArg (c :: ·) (ih f₂ (c == '\n') r (by omega) (by omega))
        | true =>
          simp only [if_true]
          cases hm : matchLen (c :: r) with
          | some k =>
            cases k with
            | zero => exact congrArg (c :: ·) (ih f₂ (c == '\n') r (by omega) (by omega))
            | succ k =>
              have hlen : ((c :: r).drop (k + 1)).length ≤ r.length := by
                simp only [List.length_drop, List.length_cons]
                omega
              exact ih f₂ _ _ (by omega) (by omega)
          | none => exact congrArg (c :: ·) (ih f₂ (c == '\n') r (by omega) (by omega))

/-- The defining recursion of `blankSub`. -/
theorem blankSub_eq (bol : Bool) (l : List Char) :
    blankSub bol l =
      match l with
      | [] => []
      | c :: r =>
        if bol then
          match matchLen (c :: r) with
          | some (k + 1) => blankSub (((c :: r).getD k ' ') == '\n') ((c :: r).drop (k + 1))
          | _ => c :: blankSub (c == '\n') r
        else c :: blankSub (c == '\n') r := by
  cases l with
  | nil => rfl
  | cons c r =>
    show blankSubF (r.length + 1) bol (c :: r) = _
    unfold blankSubF
    cases bol with
    | false => rfl
    | true =>
      simp only [if_true]
      cases hm : matchLen (c :: r) with
      | some k =>
        cases k with
        | zero => rfl
        | succ k =>
          have hlen : ((c :: r).drop (k + 1)).length ≤ r.length := by
            simp only [List.length_drop, List.length_cons]
            omega
          exact blankSubF_congr r.length _ _ _ (by omega) (le_refl _)
      | none => rfl

/-! ## Step 4 of `parse_srt`: `"\n".join(s.splitlines())` -/

/-- Advance past one line boundary: `\r\n` counts as a single boundary,
any other boundary character is one boundary. -/
def lineRest (l : List Char) : List Char :=
  if l.take 2 = ['\r', '\n'] then l.drop 2 else l.drop 1

theorem lineRest_length_le (l : List Char) : (lineRest l).length ≤ l.length - 1 := by
  unfold lineRest
  split <;> simp only [List.length_drop] <;> omega

/-- Fuel-indexed version of `splitlines`. -/
def splitlinesF : Nat → List Char → List (List Char)
  | _, [] => []
  | 0, _ => []
  | fuel + 1, c :: r =>
    (c :: r).takeWhile (fun x => !isLineBoundary x) ::
      (let d := (c :: r).dropWhile (fun x => !isLineBoundary x)
       if d.isEmpty then [] else splitlinesF fuel (lineRest d))

/-- Python `str.splitlines`. -/
def splitlines (l : List Char) : List (List Char) := splitlinesF l.length l

theorem splitlinesF_congr :
    ∀ (fuel₁ fuel₂ : Nat) (l : List Char), l.length ≤ fuel₁ → l.length ≤ fuel₂ →
      splitlinesF fuel₁ l = splitlinesF fuel₂ l := by
  intro fuel₁
  induction fuel₁ with
  | zero =>
    intro fuel₂ l h₁ _
    have : l = [] := List.length_eq_zero.mp (Nat.le_zero.mp h₁)
    subst this
    cases fuel₂ <;> rfl
  | succ f ih =>
    intro fuel₂ l h₁ h₂
    cases l with
    | nil => cases fuel₂ <;> rfl
    | cons c r =>
      cases fuel₂ with
      | zero => simp at h₂
      | succ f₂ =>
        show splitlinesF (f + 1) (c :: r) = splitlinesF (f₂ + 1) (c :: r)
        unfold splitlinesF
        simp only [List.length_cons] at h₁ h₂
        refine congrArg _ ?_
        cases hd : (c :: r).dropWhile (fun x => !isLineBoundary x) with
        | nil => rfl
        | cons x rest0 =>
          have hdl := dropWhile_cons_length hd
          have hlr := lineRest_length_le (x :: rest0)
          simp only [List.length_cons] at hdl hlr
          simp only [List.isEmpty_cons, if_false, Bool.false_eq_true]
          exact ih f₂ (lineRest (x :: rest0)) (by omega) (by omega)

/-- The defining recursion of `splitlines`. -/
theorem splitlines_eq (l : List Char) :
    splitlines l =
      match l with
      | [] => []
      | c :: r =>
        (c :: r).takeWhile (fun x => !isLineBoundary x) ::
          (let d := (c :: r).dropWhile (fun x => !isLineBoundary x)
           if d.isEmpty then [] else splitlines (lineRest d)) := by
  cases l with
  | nil => rfl
  | cons c r =>
    show splitlinesF (r.length + 1) (c :: r) = _
    unfold splitlinesF
    refine congrArg _ ?_
    cases hd : (c :: r).dropWhile (fun x => !isLineBoundary x) with
    | nil => rfl
    | cons x rest0 =>
      have hdl := dropWhile_cons_length hd
      have hlr := lineRest_length_le (x :: rest0)
      simp only [List.length_cons] at hdl hlr
      simp only [List.isEmpty_cons, if_false, Bool.false_eq_true]
      exact splitlinesF_congr r.length _ _ (by omega) (le_refl _)

/-- `sep.join(pieces)`. -/
def joinSep (sep : List Char) : List (List Char) → List Char
  | [] => []
  | [x] => x
  | x :: y :: ys => x ++ sep ++ joinSep sep (y :: ys)

/-- The whole text pipeline of `parse_srt` after a successful UTF-8 decode. -/
def pipelineText (t : List Char) : List Char :=
  joinSep ['\n'] (splitlines (blankSub true (stripTags (stripHeaders t))))

/-! ## UTF-8 -/

/-- Is `b` a UTF-8 continuation byte? -/
def contByte (b : Nat) : Bool := 0x80 ≤ b && b ≤ 0xBF

/-- Lower bound for the first continuation byte of a three-byte sequence:
`0xE0` must be followed by `0xA0`-`0xBF` (no overlongs). -/
def cont3lo (b : Nat) : Nat := if b = 0xE0 then 0xA0 else 0x80

/-- Upper bound for the first continuation byte of a three-byte sequence:
`0xED` must be followed by `0x80`-`0x9F` (no surrogates). -/
def cont3hi (b : Nat) : Nat := if b = 0xED then 0x9F else 0xBF

/-- Lower bound for the first continuation byte of a four-byte sequence:
`0xF0` must be followed by `0x90`-`0xBF` (no overlongs). -/
def cont4lo (b : Nat) : Nat := if b = 0xF0 then 0x90 else 0x80

/-- Upper bound for the first continuation byte of a four-byte sequence:
`0xF4` must be followed by `0x80`-`0x8F` (nothing above `0x10FFFF`). -/
def cont4hi (b : Nat) : Nat := if b = 0xF4 then 0x8F else 0xBF

/-- Decode one UTF-8 sequence from the head of the byte list, as Python's
strict `bytes.decode('utf-8')` does: rejects overlong encodings, surrogates,
code points above `0x10FFFF`, stray continuation bytes (`0x80`-`0xBF`),
invalid leading bytes (`0xC0`, `0xC1`, `0xF5`-`0xFF`) and truncated
sequences. -/
def utf8DecodeOne (l : List Nat) : Option (Char × List Nat) :=
  match l with
  | [] => none
  | b :: rest =>
    if b < 0x80 then
      some (Char.ofNat b, rest)
    else if b < 0xC2 then none
    else if b ≤ 0xDF then
      match rest with
      | b1 :: r =>
        if contByte b1 then
          some (Char.ofNat ((b - 0xC0) * 64 + (b1 - 0x80)), r)
        else none
      | [] => none
    else if b ≤ 0xEF then
      match rest with
      | b1 :: b2 :: r =>
        if cont3lo b ≤ b1 ∧ b1 ≤ cont3hi b ∧ contByte b2 = true then
          some (Char.ofNat ((b - 0xE0) * 4096 + (b1 - 0x80) * 64 + (b2 - 0x80)), r)
        else none
      | _ => none
    else if b ≤ 0xF4 then
      match rest with
      | b1 :: b2 :: b3 :: r =>
        if cont4lo b ≤ b1 ∧ b1 ≤ cont4hi b ∧ contByte b2 = true ∧ contByte b3 = true then
          some (Char.ofNat
            ((b - 0xF0) * 262144 + (b1 - 0x80) * 4096 + (b2 - 0x80) * 64 + (b3 - 0x80)), r)
        else none
      | _ => none
    else none

set_option maxRecDepth 8192 in
theorem utf8DecodeOne_length {l r : List Nat} {c : Char}
    (h : utf8DecodeOne l = some (c, r)) : r.length < l.length := by
  unfold utf8DecodeOne at h
  repeat' split at h
  all_goals cases h
  all_goals simp_arith

/-- Fuel-indexed version of the UTF-8 decoding loop. -/
def utf8DecodeF : Nat → List Nat → Option (List Char)
  | _, [] => some []
  | 0, _ => none
  | fuel + 1, b :: rest =>
    match utf8DecodeOne (b :: rest) with
    | some (c, r) => (utf8DecodeF fuel r).map (fun cs => c :: cs)
    | none => none

/-- Strict UTF-8 decoding of a whole byte string, as Python
`bytes.decode('utf-8')` does. -/
def utf8Decode (l : List Nat) : Option (List Char) := utf8DecodeF l.length l

theorem utf8DecodeF_congr :
    ∀ (fuel₁ fuel₂ : Nat) (l : List Nat), l.length ≤ fuel₁ → l.length ≤ fuel₂ →
      utf8DecodeF fuel₁ l = utf8DecodeF fuel₂ l := by
  intro fuel₁
  induction fuel₁ with
  | zero =>
    intro fuel₂ l h₁ _
    have : l = [] := List.length_eq_zero.mp (Nat.le_zero.mp h₁)
    subst this
    cases fuel₂ <;> rfl
  | succ f ih =>
    intro fuel₂ l h₁ h₂
    cases l with
    | nil => cases fuel₂ <;> rfl
    | cons b rest =>
      cases fuel₂ with
      | zero => simp at h₂
      | succ f₂ =>
        show utf8DecodeF (f + 1) (b :: rest) = utf8DecodeF (f₂ + 1) (b :: rest)
        unfold utf8DecodeF
        simp only [List.length_cons] at h₁ h₂
        cases hm : utf8DecodeOne (b :: rest) with
        | some cr =>
          obtain ⟨c, r⟩ := cr
          have hlt := utf8DecodeOne_length hm
          simp only [List.length_cons] at hlt
          show (utf8DecodeF f r).map (fun cs => c :: cs) = (utf8DecodeF f₂ r).map (fun cs => c :: cs)
          rw [ih f₂ r (by omega) (by omega)]
        | none => rfl

/-- The defining recursion of `utf8Decode`. -/
theorem utf8Decode_eq (l : List Nat) :
    utf8Decode l =
      match l with
      | [] => some []
      | b :: rest =>
        match utf8DecodeOne (b :: rest) with
        | some (c, r) => (utf8Decode r).map (fun cs => c :: cs)
        | none => none := by
  cases l with
  | nil => rfl
  | cons b rest =>
    show utf8DecodeF (rest.length + 1) (b :: rest) =
      match utf8DecodeOne (b :: rest) with
      | some (c, r) => (utf8Decode r).map (fun cs => c :: cs)
      | none => none
    unfold utf8DecodeF
    cases hm : utf8DecodeOne (b :: rest) with
    | some cr =>
      obtain ⟨c, r⟩ := cr
      have hlt := utf8DecodeOne_length hm
      simp only [List.length_cons] at hlt
      show (utf8DecodeF rest.length r).map (fun cs => c :: cs) = (utf8Decode r).map (fun cs => c :: cs)
      rw [show utf8Decode r = utf8DecodeF r.length r from rfl,
        utf8DecodeF_congr rest.length r.length r (by omega) (le_refl _)]
    | none => rfl

/-- UTF-8 encoding of one Unicode scalar value. -/
def utf8EncodeChar (c : Char) : List Nat :=
  let n := c.toNat
  if n < 0x80 then [n]
  else if n < 0x800 then [0xC0 + n / 64, 0x80 + n % 64]
  else if n < 0x10000 then [0xE0 + n / 4096, 0x80 + (n / 64) % 64, 0x80 + n % 64]
  else [0xF0 + n / 262144, 0x80 + (n / 4096) % 64, 0x80 + (n / 64) % 64, 0x80 + n % 64]

/-- UTF-8 encoding of a string. -/
def utf8Encode (s : List Char) : List Nat := (s.map utf8EncodeChar).flatten

/-! ## `parse_srt` -/

/-- `parse_srt` (app.py lines 50-62): decode the uploaded bytes as UTF-8 and
run the four text-cleaning steps; on a decode failure the exception handler
returns `None`, i.e. `none` here.  No other statement of the body can raise. -/
def parseSrt (bs : List Nat) : Option (List Char) :=
  (utf8Decode bs).map pipelineText

/-! ## `get_engineered_prompt` and the generate-button guard -/

/-- The fixed template text of `get_engineered_prompt` before the spliced transcript. -/
def promptPre : String :=
  "\n" ++
  "# [ROLE]\n" ++
  "You are a top-tier viral copywriter and social media strategist. You specialize in creating high-performing hooks for YouTube Shorts, Instagram Reels, and TikToks, with deep expertise in the Indian market as of August 2025. Your goal is to generate short, emotionally engaging, and curiosity-driven text that stops the scroll.\n" ++
  "\n" ++
  "# [TASK]\n" ++
  "Analyze the provided transcript to generate two categories of viral text: Headers and Titles. The output must be simple to understand (no jargon) and follow current content trends and retention psychology.\n" ++
  "\n" ++
  "# [INPUT]\n" ++
  "TRANSCRIPT: \"\"\"\n" ++
  ""

/-- The fixed template text of `get_engineered_prompt` after the spliced transcript. -/
def promptPost : String :=
  "\n" ++
  "\"\"\"\n" ++
  "\n" ++
  "# [GENERATION GUIDELINES]\n" ++
  "Your generated ideas MUST include a mix of the following styles:\n" ++
  "- **Shocking/Intriguing:** Create disbelief or a strong urge to know more.\n" ++
  "- **Knowledge-Based:** Frame as a secret, a hack, or a little-known fact.\n" ++
  "- **Aspirational:** Connect with the viewer\x27s desires or goals.\n" ++
  "- **Reverse-Psychology:** Challenge the viewer or tell them *not* to do something.\n" ++
  "- **Relatable Emotion:** Tap into a common feeling or experience.\n" ++
  "\n" ++
  "## 1. Headers (15 Options)\n" ++
  "- **Purpose:** For on-screen text or thumbnails.\n" ++
  "- **Length:** **STRICTLY 3-5 WORDS.**\n" ++
  "- **Style:**\n" ++
  "    - **MUST** be a punchy phrase, not a full sentence.\n" ++
  "    - **MUST** include 1-2 powerful emojis (e.g., 🤫, 🤯, 🚨, 💰, 🚩).\n" ++
  "    - **Examples:** \"The 12-Hour Lie 🤯\", \"Their Secret Pay Trick 🤫\", \"Stop Chasing Happiness 🚩\"\n" ++
  "\n" ++
  "## 2. Titles (10 Options)\n" ++
  "- **Purpose:** For the video title or caption.\n" ++
  "- **Length:** **STRICTLY UNDER 10 WORDS.**\n" ++
  "- **Style:**\n" ++
  "    - Start with the most impactful phrase.\n" ++
  "    - Make it feel like an exposé or a must-know piece of advice.\n" ++
  "    - Use strong keywords and power words.\n" ++
  "\n" ++
  "# [OUTPUT FORMAT]\n" ++
  "Respond ONLY with clean, formatted output in two categories. DO NOT use tables or add scores/justifications.\n" ++
  "\n" ++
  "**1. Headers (3–5 words max)**\n" ++
  "- [Header 1]\n" ++
  "- [Header 2]\n" ++
  "- ...\n" ++
  "\n" ++
  "**2. Titles (under 10 words)**\n" ++
  "- [Title 1]\n" ++
  "- [Title 2]\n" ++
  "- ...\n" ++
  ""

/-- `get_engineered_prompt` (app.py lines 64-117): an f-string that splices
the transcript, verbatim and unprocessed, between the two fixed template
parts.  (The stray template text at lines 119-127 of `app.py` sits outside
the function body and plays no role in its value.) -/
def get_engineered_prompt (transcript_text : String) : String :=
  promptPre ++ transcript_text ++ promptPost

/-- Python `str.strip()` with no argument: remove leading and trailing
whitespace. -/
def pyStrip (l : List Char) : List Char :=
  ((l.dropWhile isPySpace).reverse.dropWhile isPySpace).reverse

/-- What the generate-button handler does with the transcript: either warn
(`st.warning`, no prompt is built and no API request is made) or build the
prompt and send it to the chat-completion API. -/
inductive GenAction where
  | warn : GenAction
  | callApi (prompt : String) : GenAction
deriving DecidableEq

/-- The guard of the generate button (app.py lines 205-212):
`if not transcript_input or not transcript_input.strip():` warn, else build
the prompt from the transcript and call the API with it.  In the `.srt`
upload path `transcript_input` can also be Python `None` (modelled as
`none`), which is falsy. -/
def handleGenerate (transcript : Option String) : GenAction :=
  match transcript with
  | none => .warn
  | some s =>
    if s.toList.isEmpty || (pyStrip s.toList).isEmpty then .warn
    else .callApi (get_engineered_prompt s)

/-! ## Facts about `stripTags` -/

theorem dropWhile_eq_nil_of_all {p : Char → Bool} :
    ∀ {a : List Char}, (∀ x ∈ a, p x = true) → a.dropWhile p = []
  | [], _ => rfl
  | y :: a₀, h => by
    rw [List.dropWhile_cons, if_pos (h y (by simp))]
    exact dropWhile_eq_nil_of_all (fun x hx => h x (by simp [hx]))

theorem dropWhile_append_gt {a rest : List Char} (h : ∀ x ∈ a, (x != '>') = true) :
    (a ++ '>' :: rest).dropWhile (fun x => x != '>') = '>' :: rest := by
  induction a with
  | nil => simp [List.dropWhile_cons]
  | cons y a₀ ih =>
    rw [List.cons_append, List.dropWhile_cons, if_pos (h y (by simp))]
    exact ih (fun x hx => h x (by simp [hx]))

theorem dropWhile_gt_split :
    ∀ {a : List Char} {b rest : List Char}, (∀ x ∈ b, (x != '>') = true) →
      (a ++ b).dropWhile (fun x => x != '>') = '>' :: rest →
      ∃ a', a.dropWhile (fun x => x != '>') = '>' :: a' ∧ rest = a' ++ b
  | [], b, rest, hb, h => by
    rw [List.nil_append, dropWhile_eq_nil_of_all hb] at h
    cases h
  | y :: a₀, b, rest, hb, h => by
    rw [List.cons_append, List.dropWhile_cons] at h
    by_cases hy : (y != '>') = true
    · rw [if_pos hy] at h
      obtain ⟨a', ha', hrest⟩ := dropWhile_gt_split hb h
      refine ⟨a', ?_, hrest⟩
      rw [List.dropWhile_cons, if_pos hy]
      exact ha'
    · rw [if_neg hy] at h
      have hy' : y = '>' := by
        simp only [bne_iff_ne, ne_eq, not_not] at hy
        exact hy
      subst hy'
      injection h with h₁ h₂
      refine ⟨a₀, ?_, h₂.symm⟩
      rw [List.dropWhile_cons]
      simp

/-- A whole-tag match: `<`, a nonempty run of non-`>` characters, `>`. -/
theorem tagMatch_of_span {mid rest : List Char} (hne : mid ≠ []) (hgt : '>' ∉ mid) :
    tagMatch ('<' :: (mid ++ '>' :: rest)) = some rest := by
  obtain ⟨m, ms, rfl⟩ : ∃ m ms, mid = m :: ms := by
    cases mid with
    | nil => exact absurd rfl hne
    | cons m ms => exact ⟨m, ms, rfl⟩
  have hm : m ≠ '>' := fun hc => hgt (hc ▸ List.mem_cons_self m ms)
  have hall : ∀ x ∈ m :: ms, (x != '>') = true := by
    intro x hx
    simp only [bne_iff_ne, ne_eq]
    intro hc
    exact hgt (hc ▸ hx)
  have hdw : ((m :: ms) ++ '>' :: rest).dropWhile (fun x => x != '>') = '>' :: rest :=
    dropWhile_append_gt hall
  show tagMatch ('<' :: m :: (ms ++ '>' :: rest)) = some rest
  simp only [tagMatch, if_true]
  rw [if_neg hm, show (m :: (ms ++ '>' :: rest)) = ((m :: ms) ++ '>' :: rest) from rfl, hdw]
  simp

theorem tagMatch_lt_gt (rest : List Char) : tagMatch ('<' :: '>' :: rest) = none := by
  simp [tagMatch]

theorem tagMatch_none_of_not_lt : ∀ {l : List Char}, l.head? ≠ some '<' → tagMatch l = none
  | [], _ => rfl
  | [c], h => rfl
  | c :: c₂ :: r₂, h => by
    have hc : c ≠ '<' := by
      intro hx
      exact h (by simp [hx])
    simp [tagMatch, hc]

/-- If the run of non-`>` characters after a `<` never ends in a `>`, there is
no tag match. -/
theorem tagMatch_none_of_no_gt {l : List Char} (h : '>' ∉ l.tail) :
    tagMatch l = none := by
  cases l with
  | nil => rfl
  | cons c r =>
    cases r with
    | nil => rfl
    | cons c₂ r₂ =>
      by_cases hc : c = '<'
      · subst hc
        have hc₂ : c₂ ≠ '>' := by
          intro hx
          exact (by simpa using h : '>' ∉ c₂ :: r₂) (by simp [hx])
        have hall : ∀ x ∈ c₂ :: r₂, (x != '>') = true := by
          intro x hx
          simp only [bne_iff_ne, ne_eq]
          intro hcx
          exact (by simpa using h : '>' ∉ c₂ :: r₂) (hcx ▸ hx)
        simp only [tagMatch, if_true]
        rw [if_neg hc₂, dropWhile_eq_nil_of_all hall]
      · exact tagMatch_none_of_not_lt (by simp [hc])

theorem stripTags_id_of_no_gt_bound :
    ∀ (n : Nat) (l : List Char), l.length ≤ n → '>' ∉ l → stripTags l = l := by
  intro n
  induction n with
  | zero =>
    intro l hl _
    have : l = [] := List.length_eq_zero.mp (Nat.le_zero.mp hl)
    subst this
    rfl
  | succ n ih =>
    intro l hl hgt
    rw [stripTags_eq, tagMatch_none_of_no_gt (fun hx => hgt (List.mem_of_mem_tail hx))]
    cases l with
    | nil => rfl
    | cons c r =>
      simp only [List.length_cons] at hl
      show c :: stripTags r = c :: r
      rw [ih r (by omega) (fun hx => hgt (by simp [hx]))]

/-- `stripTags` keeps a string without `>` unchanged. -/
theorem stripTags_id_of_no_gt {l : List Char} (h : '>' ∉ l) : stripTags l = l :=
  stripTags_id_of_no_gt_bound l.length l (le_refl _) h

theorem tagMatch_some_inv {l rest : List Char} (h : tagMatch l = some rest) :
    ∃ c₂ cs, l = '<' :: c₂ :: cs ∧ c₂ ≠ '>' ∧
      (c₂ :: cs).dropWhile (fun x => x != '>') = '>' :: rest := by
  unfold tagMatch at h
  split at h
  · rename_i c c₂ cs
    split at h
    · rename_i hc
      split at h
      · cases h
      · rename_i hc₂
        split at h
        · rename_i g rest' hdw
          split at h
          · rename_i hg
            cases h
            exact ⟨c₂, cs, by rw [hc], hc₂, by rw [hdw, hg]⟩
          · cases h
        · cases h
    · cases h
  · cases h

theorem stripTags_unclosed_bound :
    ∀ (n : Nat) (l₁ l₂ : List Char), l₁.length ≤ n → '>' ∉ l₂ →
      ∃ r, stripTags (l₁ ++ '<' :: l₂) = r ++ '<' :: l₂ := by
  intro n
  induction n with
  | zero =>
    intro l₁ l₂ h1 hgt
    have : l₁ = [] := List.length_eq_zero.mp (Nat.le_zero.mp h1)
    subst this
    exact ⟨[], by rw [List.nil_append, stripTags_id_of_no_gt (by simpa using hgt)]⟩
  | succ n ih =>
    intro l₁ l₂ h1 hgt
    cases l₁ with
    | nil =>
      exact ⟨[], by rw [List.nil_append, stripTags_id_of_no_gt (by simpa using hgt)]⟩
    | cons c l₁' =>
      rw [List.cons_append, stripTags_eq]
      simp only [List.length_cons] at h1
      cases hm : tagMatch (c :: (l₁' ++ '<' :: l₂)) with
      | none =>
        obtain ⟨r, hr⟩ := ih l₁' l₂ (by omega) hgt
        exact ⟨c :: r, by show c :: stripTags (l₁' ++ '<' :: l₂) = (c :: r) ++ '<' :: l₂; rw [hr]; rfl⟩
      | some rest =>
        obtain ⟨c₂, cs, hl, hc₂, hdw⟩ := tagMatch_some_inv hm
        have hcs : (c₂ :: cs) = l₁' ++ '<' :: l₂ := by
          injection hl with h₁ h₂
          exact h₂.symm
        rw [hcs] at hdw
        have hb : ∀ x ∈ '<' :: l₂, (x != '>') = true := by
          intro x hx
          simp only [bne_iff_ne, ne_eq]
          intro hcx
          subst hcx
          rcases List.mem_cons.mp hx with h | h
          · cases h
          · exact hgt h
        obtain ⟨a', ha', hrest⟩ := dropWhile_gt_split hb hdw
        have ha'len : a'.length < l₁'.length := dropWhile_cons_length ha'
        obtain ⟨r, hr⟩ := ih a' l₂ (by omega) hgt
        refine ⟨r, ?_⟩
        show stripTags rest = r ++ '<' :: l₂
        rw [hrest]
        exact hr

/-! ## Facts about `stripHeaders` -/

theorem takeWhile_append_stop {p : Char → Bool} :
    ∀ {a : List Char} {y : Char} {w : List Char}, (∀ x ∈ a, p x = true) → p y = false →
      (a ++ y :: w).takeWhile p = a
  | [], y, w, _, hy => by
    rw [List.nil_append, List.takeWhile_cons, hy]
    simp
  | x :: a₀, y, w, h, hy => by
    rw [List.cons_append, List.takeWhile_cons, h x (by simp)]
    simp only [if_true]
    rw [takeWhile_append_stop (fun z hz => h z (by simp [hz])) hy]

theorem dropWhile_append_stop {p : Char → Bool} :
    ∀ {a : List Char} {y : Char} {w : List Char}, (∀ x ∈ a, p x = true) → p y = false →
      (a ++ y :: w).dropWhile p = y :: w
  | [], y, w, _, hy => by
    rw [List.nil_append, List.dropWhile_cons, hy]
    simp
  | x :: a₀, y, w, h, hy => by
    rw [List.cons_append, List.dropWhile_cons, h x (by simp)]
    simp only [if_true]
    exact dropWhile_append_stop (fun z hz => h z (by simp [hz])) hy

theorem timeCheck_length {l : List Char} (h : timeCheck l = true) : l.length = 30 := by
  unfold timeCheck at h
  simp only [Bool.and_eq_true, beq_iff_eq] at h
  exact h.1

/-- Is `t` exactly a time-range line `\d{2}:\d{2}:\d{2},\d{3} --> \d{2}:\d{2}:\d{2},\d{3}`? -/
def timeShaped (t : List Char) : Bool := timeCheck (t ++ ['\n'])

theorem timeHead_of_shaped {t : List Char} (h : timeShaped t = true) (rest : List Char) :
    timeHead (t ++ '\n' :: rest) = some rest := by
  have hlen : t.length = 29 := by
    have := timeCheck_length h
    simp only [List.length_append, List.length_cons, List.length_nil] at this
    omega
  have hsplit : t ++ '\n' :: rest = (t ++ ['\n']) ++ rest := by
    simp
  have hlen30 : (t ++ ['\n']).length = 30 := by
    simp [hlen]
  have h' : timeCheck (t ++ ['\n']) = true := h
  unfold timeHead
  rw [hsplit, List.take_left' hlen30, List.drop_left' hlen30, if_pos h']

theorem headerMatch_header {ds t rest : List Char} (hne : ds ≠ [])
    (hdig : ∀ c ∈ ds, isPyDigit c = true) (ht : timeShaped t = true) :
    headerMatch (ds ++ '\n' :: (t ++ '\n' :: rest)) = some rest := by
  have hnl : isPyDigit '\n' = false := rfl
  unfold headerMatch
  rw [takeWhile_append_stop hdig hnl, dropWhile_append_stop hdig hnl]
  rw [if_neg (by simpa using hne)]
  show (if ('\n' : Char) = '\n' then timeHead (t ++ '\n' :: rest) else none) = some rest
  rw [if_pos (show ('\n' : Char) = '\n' from rfl)]
  exact timeHead_of_shaped ht rest

theorem stripHeadersF_length_le : ∀ (fuel : Nat) (l : List Char),
    (stripHeadersF fuel l).length ≤ l.length := by
  intro fuel
  induction fuel with
  | zero =>
    intro l
    cases l <;> simp [stripHeadersF]
  | succ f ih =>
    intro l
    cases l with
    | nil => simp [stripHeadersF]
    | cons c r =>
      show (match headerMatch (c :: r) with
        | some rest => stripHeadersF f rest
        | none => c :: stripHeadersF f r).length ≤ (c :: r).length
      cases hm : headerMatch (c :: r) with
      | some rest =>
        have h₁ := ih rest
        have h₂ := headerMatch_length hm
        simp only [List.length_cons] at h₂ ⊢
        omega
      | none =>
        have h₁ := ih r
        simp only [List.length_cons]
        omega

theorem stripHeaders_length_le (l : List Char) : (stripHeaders l).length ≤ l.length :=
  stripHeadersF_length_le l.length l

theorem stripHeaders_id_of_no_occ_bound :
    ∀ (n : Nat) (l : List Char), l.length ≤ n →
      (∀ i, headerMatch (l.drop i) = none) → stripHeaders l = l := by
  intro n
  induction n with
  | zero =>
    intro l hl _
    have : l = [] := List.length_eq_zero.mp (Nat.le_zero.mp hl)
    subst this
    rfl
  | succ n ih =>
    intro l hl hocc
    rw [stripHeaders_eq]
    have h0 : headerMatch l = none := by
      have := hocc 0
      rwa [List.drop_zero] at this
    rw [h0]
    cases l with
    | nil => rfl
    | cons c r =>
      simp only [List.length_cons] at hl
      show c :: stripHeaders r = c :: r
      rw [ih r (by omega) (fun i => by have := hocc (i + 1); rwa [List.drop_succ_cons] at this)]

theorem stripHeaders_ne_of_occ_bound :
    ∀ (n : Nat) (l : List Char), l.length ≤ n →
      (∃ i, (headerMatch (l.drop i)).isSome) → stripHeaders l ≠ l := by
  intro n
  induction n with
  | zero =>
    intro l hl hocc
    have hnil : l = [] := List.length_eq_zero.mp (Nat.le_zero.mp hl)
    subst hnil
    obtain ⟨i, hi⟩ := hocc
    rw [List.drop_nil] at hi
    exact absurd hi (by decide)
  | succ n ih =>
    intro l hl hocc
    cases hm : headerMatch l with
    | some rest =>
      intro hc
      rw [stripHeaders_eq, hm] at hc
      have hc' : stripHeaders rest = l := hc
      have h₁ := stripHeaders_length_le rest
      have h₂ := headerMatch_length hm
      have h₃ := congrArg List.length hc'
      omega
    | none =>
      cases l with
      | nil =>
        obtain ⟨i, hi⟩ := hocc
        rw [List.drop_nil] at hi
        exact absurd hi (by decide)
      | cons c r =>
        simp only [List.length_cons] at hl
        obtain ⟨i, hi⟩ := hocc
        cases i with
        | zero =>
          rw [List.drop_zero, hm] at hi
          cases hi
        | succ i =>
          rw [List.drop_succ_cons] at hi
          intro hc
          rw [stripHeaders_eq, hm] at hc
          have hc' : c :: stripHeaders r = c :: r := hc
          injection hc' with h1 h2
          exact ih r (by omega) ⟨i, hi⟩ h2

/-- The '\n'-separated segments of a text (keeping every segment, unlike
Python `splitlines`; used to state line-level properties). -/
def splitOnNl : List Char → List (List Char)
  | [] => [[]]
  | c :: r => if c = '\n' then [] :: splitOnNl r else (splitOnNl r).modifyHead (c :: ·)

theorem splitOnNl_ne_nil (l : List Char) : splitOnNl l ≠ [] := by
  induction l with
  | nil => simp [splitOnNl]
  | cons c r ih =>
    unfold splitOnNl
    split
    · simp
    · cases hr : splitOnNl r with
      | nil => exact absurd hr ih
      | cons a as => simp

/-! ## Facts about `matchLen` and `wsRun` -/

theorem matchLenAux_some_le :
    ∀ {m : Nat} {l : List Char} {k : Nat}, matchLenAux m l = some k →
      k ≤ m ∧ dollar (l.drop k) = true := by
  intro m
  induction m with
  | zero =>
    intro l k h
    unfold matchLenAux at h
    split at h
    · rename_i hd
      cases h
      exact ⟨le_refl _, hd⟩
    · cases h
  | succ m ih =>
    intro l k h
    unfold matchLenAux at h
    split at h
    · rename_i hd
      cases h
      exact ⟨le_refl _, hd⟩
    · have := ih h
      exact ⟨by omega, this.2⟩

theorem matchLenAux_some_max :
    ∀ {m : Nat} {l : List Char} {k : Nat}, matchLenAux m l = some k →
      ∀ j, k < j → j ≤ m → dollar (l.drop j) = false := by
  intro m
  induction m with
  | zero =>
    intro l k h j hj hjm
    omega
  | succ m ih =>
    intro l k h j hj hjm
    unfold matchLenAux at h
    split at h
    · rename_i hd
      cases h
      omega
    · rename_i hd
      rcases Nat.lt_or_ge j (m + 1) with hlt | hge
      · exact ih h j hj (by omega)
      · have : j = m + 1 := by omega
        subst this
        exact Bool.not_eq_true _ ▸ (by simpa using hd)

theorem matchLenAux_none :
    ∀ {m : Nat} {l : List Char}, matchLenAux m l = none →
      ∀ j, j ≤ m → dollar (l.drop j) = false := by
  intro m
  induction m with
  | zero =>
    intro l h j hj
    unfold matchLenAux at h
    split at h
    · cases h
    · rename_i hd
      have : j = 0 := by omega
      subst this
      rw [List.drop_zero]
      simpa using hd
  | succ m ih =>
    intro l h j hj
    unfold matchLenAux at h
    split at h
    · cases h
    · rename_i hd
      rcases Nat.lt_or_ge j (m + 1) with hlt | hge
      · exact ih h j (by omega)
      · have : j = m + 1 := by omega
        subst this
        simpa using hd

theorem matchLenAux_none_of :
    ∀ {m : Nat} {l : List Char}, (∀ j, j ≤ m → dollar (l.drop j) = false) →
      matchLenAux m l = none := by
  intro m
  induction m with
  | zero =>
    intro l h
    unfold matchLenAux
    rw [if_neg (by simpa using h 0 (le_refl _))]
  | succ m ih =>
    intro l h
    unfold matchLenAux
    rw [if_neg (by simpa using h (m + 1) (le_refl _))]
    exact ih (fun j hj => h j (by omega))

theorem wsRun_cons_ws {c : Char} (h : isPySpace c = true) (r : List Char) :
    wsRun (c :: r) = wsRun r + 1 := by
  unfold wsRun
  rw [List.takeWhile_cons, h]
  simp

theorem wsRun_cons_not_ws {c : Char} (h : isPySpace c = false) (r : List Char) :
    wsRun (c :: r) = 0 := by
  unfold wsRun
  rw [List.takeWhile_cons, h]
  simp

theorem wsRun_drop : ∀ (j : Nat) (l : List Char), j ≤ wsRun l →
    wsRun (l.drop j) = wsRun l - j := by
  intro j
  induction j with
  | zero =>
    intro l _
    simp
  | succ j ih =>
    intro l hj
    cases l with
    | nil =>
      unfold wsRun at hj
      simp at hj
    | cons c r =>
      cases hc : isPySpace c with
      | false =>
        rw [wsRun_cons_not_ws hc] at hj
        omega
      | true =>
        rw [wsRun_cons_ws hc] at hj ⊢
        rw [List.drop_succ_cons]
        rw [ih r (by omega)]
        omega

theorem wsRun_le_length (l : List Char) : wsRun l ≤ l.length := by
  unfold wsRun
  have := length_takeWhile_add_dropWhile isPySpace l
  omega

theorem wsRun_mem_ws {l : List Char} {j : Nat} (hj : j < wsRun l) :
    ∀ d, isPySpace (l.getD j d) = true := by
  intro d
  induction l generalizing j with
  | nil =>
    unfold wsRun at hj
    simp at hj
  | cons c r ih =>
    cases hc : isPySpace c with
    | false =>
      rw [wsRun_cons_not_ws hc] at hj
      omega
    | true =>
      cases j with
      | zero => simpa using hc
      | succ j =>
        rw [wsRun_cons_ws hc] at hj
        exact ih (by omega)

theorem takeWhile_append_all {p : Char → Bool} :
    ∀ {a s : List Char}, (∀ c ∈ a, p c = true) → (a ++ s).takeWhile p = a ++ s.takeWhile p
  | [], s, _ => by simp
  | c :: a', s, h => by
    rw [List.cons_append, List.takeWhile_cons, h c (by simp)]
    simp only [if_true, List.cons_append]
    rw [takeWhile_append_all (fun z hz => h z (by simp [hz]))]

theorem dropWhile_head_false {p : Char → Bool} :
    ∀ {l : List Char} {x : Char} {xs : List Char}, l.dropWhile p = x :: xs → p x = false
  | [], x, xs, h => by cases h
  | c :: r, x, xs, h => by
    rw [List.dropWhile_cons] at h
    split at h
    · exact dropWhile_head_false h
    · rename_i hc
      injection h with h1 _
      subst h1
      simpa using hc

/-- If a match attempt at a `^` position fails entirely, the current line
contains a character that is not whitespace. -/
theorem matchLen_none_hasNonWs {l : List Char} (h : matchLen l = none) :
    ∃ c ∈ l.takeWhile (fun x => x != '\n'), isPySpace c = false := by
  by_contra hall
  push_neg at hall
  have hws : ∀ c ∈ l.takeWhile (fun x => x != '\n'), isPySpace c = true := by
    intro c hc
    have := hall c hc
    simpa using this
  set t := l.takeWhile (fun x => x != '\n') with ht
  set d := l.dropWhile (fun x => x != '\n') with hd'
  have hd : t ++ d = l := by
    rw [ht, hd']
    exact List.takeWhile_append_dropWhile _ _
  have hjws : t.length ≤ wsRun l := by
    have h0 : wsRun l = wsRun (t ++ d) := by rw [hd]
    rw [h0]
    unfold wsRun
    rw [takeWhile_append_all hws]
    simp
  have hdrop : l.drop t.length = d := by
    rw [← hd, List.drop_left]
  have hdollar : dollar (l.drop t.length) = true := by
    rw [hdrop]
    cases hdd : d with
    | nil => rfl
    | cons x xs =>
      have hx : ((fun z => z != '\n') x) = false := by
        apply dropWhile_head_false (l := l) (p := fun z => z != '\n')
        rw [← hd']
        exact hdd
      simp only [bne_eq_false_iff_eq] at hx
      subst hx
      rfl
  have hfalse := matchLenAux_none (m := wsRun l) (l := l) h t.length hjws
  rw [hfalse] at hdollar
  cases hdollar

/-! ## Segment structure of the `blankSub` output -/

/-- Every character of the segment is whitespace. -/
def allWs (l : List Char) : Prop := ∀ c ∈ l, isPySpace c = true

/-- A `'\n'`-separated segment is acceptable when it is empty or contains a
character that is not whitespace (so it is never a nonempty
whitespace-only line). -/
def goodSeg (s : List Char) : Prop := s = [] ∨ ∃ c ∈ s, isPySpace c = false

/-- No two adjacent segments are both empty. -/
def noAdjEmpty : List (List Char) → Prop
  | [] => True
  | [_] => True
  | a :: b :: rest => ¬(a = [] ∧ b = []) ∧ noAdjEmpty (b :: rest)

theorem dollar_cons (c : Char) (r : List Char) : dollar (c :: r) = (c == '\n') := rfl

theorem dollar_false_elim {l : List Char} (h : dollar l = false) :
    ∃ c v, l = c :: v ∧ c ≠ '\n' := by
  cases l with
  | nil => cases h
  | cons c v =>
    rw [dollar_cons] at h
    exact ⟨c, v, rfl, by simpa using h⟩

theorem matchLen_some_zero_head {c : Char} {r : List Char}
    (h : matchLen (c :: r) = some 0) : c = '\n' := by
  have := (matchLenAux_some_le h).2
  rw [List.drop_zero, dollar_cons] at this
  simpa using this

theorem matchLen_none_head {c : Char} {r : List Char}
    (h : matchLen (c :: r) = none) : c ≠ '\n' := by
  have := matchLenAux_none h 0 (by omega)
  rw [List.drop_zero, dollar_cons] at this
  simpa using this

/-- After an empty match on a lone blank line, no match is possible at the
start of the next line, which moreover exists and is not itself blank. -/
theorem matchLen_bridge {r : List Char} (h : matchLen ('\n' :: r) = some 0) :
    matchLen r = none ∧ dollar r = false := by
  have hws : isPySpace '\n' = true := by decide
  have hrun : wsRun ('\n' :: r) = wsRun r + 1 := wsRun_cons_ws hws r
  have hmax := matchLenAux_some_max h
  constructor
  · apply matchLenAux_none_of
    intro j hj
    have := hmax (j + 1) (by omega) (by omega)
    rwa [List.drop_succ_cons] at this
  · have := hmax 1 (by omega) (by omega)
    rwa [List.drop_succ_cons, List.drop_zero] at this

/-- After deleting a nonempty `^\s*$` match, the scan stands either at the
end of the text or at a newline that begins a line on which no further match
is possible. -/
theorem matchLen_after_drop {u : List Char} {k : Nat}
    (h : matchLen u = some (k + 1)) :
    u.drop (k + 1) = [] ∨
      ∃ v, u.drop (k + 1) = '\n' :: v ∧ matchLen v = none ∧ dollar v = false := by
  obtain ⟨hle, hd⟩ := matchLenAux_some_le h
  have hmax := matchLenAux_some_max h
  cases hu' : u.drop (k + 1) with
  | nil => exact Or.inl rfl
  | cons c v =>
    rw [hu', dollar_cons] at hd
    have hc : c = '\n' := by simpa using hd
    subst hc
    refine Or.inr ⟨v, rfl, ?_, ?_⟩
    · have hrun' : wsRun (u.drop (k + 1)) = wsRun u - (k + 1) := wsRun_drop (k + 1) u hle
      rw [hu', wsRun_cons_ws (by decide)] at hrun'
      have hge : k + 2 ≤ wsRun u := by omega
      have hv : v = u.drop (k + 2) := by
        have : u.drop (k + 2) = (u.drop (k + 1)).drop 1 := by
          rw [List.drop_drop]
        rw [this, hu', List.drop_succ_cons, List.drop_zero]
      apply matchLenAux_none_of
      intro j hj
      have hjr : wsRun v = wsRun u - (k + 2) := by omega
      have hdj := hmax (k + 2 + j) (by omega) (by omega)
      rw [hv, List.drop_drop]
      exact hdj
    · have hrun' : wsRun (u.drop (k + 1)) = wsRun u - (k + 1) := wsRun_drop (k + 1) u hle
      rw [hu', wsRun_cons_ws (by decide)] at hrun'
      have := hmax (k + 2) (by omega) (by omega)
      have hv : v = u.drop (k + 2) := by
        have h2 : u.drop (k + 2) = (u.drop (k + 1)).drop 1 := by
          rw [List.drop_drop]
        rw [h2, hu', List.drop_succ_cons, List.drop_zero]
      rwa [← hv] at this

theorem blankSub_false_cons (c : Char) (r : List Char) :
    blankSub false (c :: r) = c :: blankSub (c == '\n') r := by
  rw [blankSub_eq]
  simp

theorem blankSub_true_no_match {c : Char} {r : List Char}
    (hm : matchLen (c :: r) = none) :
    blankSub true (c :: r) = c :: blankSub (c == '\n') r := by
  rw [blankSub_eq]
  simp only [if_true]
  rw [hm]

theorem blankSub_true_empty_match {c : Char} {r : List Char}
    (hm : matchLen (c :: r) = some 0) :
    blankSub true (c :: r) = c :: blankSub (c == '\n') r := by
  rw [blankSub_eq]
  simp only [if_true]
  rw [hm]

theorem blankSub_true_drop {c : Char} {r : List Char} {k : Nat}
    (hm : matchLen (c :: r) = some (k + 1)) :
    blankSub true (c :: r) =
      blankSub (((c :: r).getD k ' ') == '\n') ((c :: r).drop (k + 1)) := by
  rw [blankSub_eq]
  simp only [if_true]
  rw [hm]

/-! ### `splitOnNl` structure -/

theorem splitOnNl_cons_nl (l : List Char) : splitOnNl ('\n' :: l) = [] :: splitOnNl l := by
  rw [splitOnNl]
  simp

theorem splitOnNl_cons_ne {c : Char} (h : c ≠ '\n') (l : List Char) :
    splitOnNl (c :: l) = (splitOnNl l).modifyHead (c :: ·) := by
  rw [splitOnNl, if_neg h]

theorem splitOnNl_no_nl : ∀ {l : List Char}, '\n' ∉ l → splitOnNl l = [l]
  | [], _ => rfl
  | c :: r, h => by
    have hc : c ≠ '\n' := fun hx => h (by simp [hx])
    rw [splitOnNl_cons_ne hc, splitOnNl_no_nl (fun hx => h (by simp [hx]))]
    rfl

theorem modifyHead_modifyHead (f g : List Char → List Char) (s : List (List Char)) :
    (s.modifyHead g).modifyHead f = s.modifyHead (fun x => f (g x)) := by
  cases s <;> rfl

theorem splitOnNl_append : ∀ {a : List Char} (l : List Char), '\n' ∉ a →
    splitOnNl (a ++ l) = (splitOnNl l).modifyHead (a ++ ·)
  | [], l, _ => by
    rw [List.nil_append]
    cases hs : splitOnNl l with
    | nil => exact absurd hs (splitOnNl_ne_nil l)
    | cons x xs => simp
  | c :: a', l, h => by
    have hc : c ≠ '\n' := fun hx => h (by simp [hx])
    rw [List.cons_append, splitOnNl_cons_ne hc,
      splitOnNl_append l (fun hx => h (by simp [hx])), modifyHead_modifyHead]
    rfl

theorem noAdjEmpty_cons_cons {a b : List Char} {rest : List (List Char)} :
    noAdjEmpty (a :: b :: rest) ↔ ¬(a = [] ∧ b = []) ∧ noAdjEmpty (b :: rest) :=
  Iff.rfl

theorem splitOnNl_seg_no_nl : ∀ {l : List Char} {s : List Char}, s ∈ splitOnNl l → '\n' ∉ s
  | [], s, hs => by
    simp [splitOnNl] at hs
    simp [hs]
  | c :: r, s, hs => by
    by_cases hc : c = '\n'
    · subst hc
      rw [splitOnNl_cons_nl] at hs
      rcases List.mem_cons.mp hs with rfl | hs'
      · simp
      · exact splitOnNl_seg_no_nl hs'
    · rw [splitOnNl_cons_ne hc] at hs
      cases hsp : splitOnNl r with
      | nil => exact absurd hsp (splitOnNl_ne_nil r)
      | cons a as =>
        rw [hsp] at hs
        rcases List.mem_cons.mp hs with rfl | hs'
        · intro hmem
          rcases List.mem_cons.mp hmem with h1 | h2
          · exact hc h1.symm
          · exact splitOnNl_seg_no_nl (l := r) (by rw [hsp]; simp) h2
        · exact splitOnNl_seg_no_nl (l := r) (by rw [hsp]; exact List.mem_cons_of_mem a hs')

/-- The central invariant of the blank-line pass: its output, cut at the
newlines, has no nonempty whitespace-only segment and no two adjacent empty
segments.  `σ` is the newline-free text already emitted on the current
output line; the two implications record what must hold of the remaining
input in the two delicate states (a whitespace-only open segment, and the
position right after a deleted match). -/
theorem blankSub_segs_bound :
    ∀ (n : Nat) (u : List Char) (bol : Bool) (σ : List Char), u.length ≤ n →
      '\n' ∉ σ →
      (σ ≠ [] → allWs σ → bol = false ∧
        ∃ c ∈ u.takeWhile (fun x => x != '\n'), isPySpace c = false) →
      (σ = [] → bol = false → u = [] ∨
        ∃ v, u = '\n' :: v ∧ matchLen v = none ∧ dollar v = false) →
      (∀ s ∈ splitOnNl (σ ++ blankSub bol u), goodSeg s) ∧
      noAdjEmpty (splitOnNl (σ ++ blankSub bol u)) := by
  intro n
  induction n with
  | zero =>
    intro u bol σ hl hnl hws _
    have hu : u = [] := List.length_eq_zero.mp (Nat.le_zero.mp hl)
    subst hu
    show (∀ s ∈ splitOnNl (σ ++ []), goodSeg s) ∧ noAdjEmpty (splitOnNl (σ ++ []))
    rw [List.append_nil, splitOnNl_no_nl hnl]
    refine ⟨?_, trivial⟩
    intro s hs
    rcases List.mem_cons.mp hs with rfl | hs'
    · by_cases hσ : s = []
      · exact Or.inl hσ
      · by_cases hall : allWs s
        · obtain ⟨_, c, hc, _⟩ := hws hσ hall
          simp at hc
        · unfold allWs at hall
          push_neg at hall
          obtain ⟨c, hc, hcn⟩ := hall
          exact Or.inr ⟨c, hc, by simpa using hcn⟩
    · simp at hs'
  | succ n ih =>
    intro u bol σ hl hnl hws hemp
    cases u with
    | nil =>
      show (∀ s ∈ splitOnNl (σ ++ []), goodSeg s) ∧ noAdjEmpty (splitOnNl (σ ++ []))
      rw [List.append_nil, splitOnNl_no_nl hnl]
      refine ⟨?_, trivial⟩
      intro s hs
      rcases List.mem_cons.mp hs with rfl | hs'
      · by_cases hσ : s = []
        · exact Or.inl hσ
        · by_cases hall : allWs s
          · obtain ⟨_, c, hc, _⟩ := hws hσ hall
            simp at hc
          · unfold allWs at hall
            push_neg at hall
            obtain ⟨c, hc, hcn⟩ := hall
            exact Or.inr ⟨c, hc, by simpa using hcn⟩
      · simp at hs'
    | cons c r =>
      simp only [List.length_cons] at hl
      have closeSeg : ∀ (r' : List Char), r'.length ≤ n → goodSeg σ →
          (σ = [] → ∃ c' v', r' = c' :: v' ∧ c' ≠ '\n' ∧ matchLen r' = none) →
          (∀ s ∈ splitOnNl (σ ++ '\n' :: blankSub true r'), goodSeg s) ∧
          noAdjEmpty (splitOnNl (σ ++ '\n' :: blankSub true r')) := by
        intro r' hr' hgσ hne
        have hrw : splitOnNl (σ ++ '\n' :: blankSub true r') =
            σ :: splitOnNl (blankSub true r') := by
          rw [splitOnNl_append _ hnl, splitOnNl_cons_nl]
          simp
        have hrec := ih r' true [] hr' (by simp)
          (fun h => absurd rfl h)
          (fun _ hbol => by cases hbol)
        rw [List.nil_append] at hrec
        rw [hrw]
        constructor
        · intro s hs
          rcases List.mem_cons.mp hs with rfl | hs'
          · exact hgσ
          · exact hrec.1 s hs'
        · cases hsegs : splitOnNl (blankSub true r') with
          | nil => exact absurd hsegs (splitOnNl_ne_nil _)
          | cons b rest2 =>
            rw [hsegs] at hrec
            rw [noAdjEmpty_cons_cons]
            refine ⟨?_, hrec.2⟩
            rintro ⟨hσe, hbe⟩
            obtain ⟨c', v', hr'', hc', hmn⟩ := hne hσe
            subst hr''
            rw [blankSub_true_no_match hmn, splitOnNl_cons_ne hc'] at hsegs
            cases hsp2 : splitOnNl (blankSub (c' == '\n') v') with
            | nil => exact absurd hsp2 (splitOnNl_ne_nil _)
            | cons a as =>
              rw [hsp2] at hsegs
              simp only [List.modifyHead_cons] at hsegs
              have hb : b = c' :: a := (List.cons.injEq .. ▸ hsegs).1.symm
              rw [hb] at hbe
              cases hbe
      cases bol with
      | false =>
        by_cases hc : c = '\n'
        · subst hc
          rw [blankSub_false_cons]
          have hcc : (('\n' : Char) == '\n') = true := by decide
          rw [hcc]
          apply closeSeg r (by omega)
          · by_cases hσ : σ = []
            · exact Or.inl hσ
            · by_cases hall : allWs σ
              · obtain ⟨_, x, hx, hxw⟩ := hws hσ hall
                simp at hx
              · unfold allWs at hall
                push_neg at hall
                obtain ⟨x, hx, hxn⟩ := hall
                exact Or.inr ⟨x, hx, by simpa using hxn⟩
          · intro hσe
            rcases hemp hσe rfl with hne | ⟨v, hv, hmn, hdv⟩
            · cases hne
            · have hvr : v = r := (((List.cons.injEq ..).mp hv).2).symm
              subst hvr
              obtain ⟨c', v', hr'', hc'⟩ := dollar_false_elim hdv
              exact ⟨c', v', hr'', hc', hmn⟩
        · rw [blankSub_false_cons]
          have hcc : (c == '\n') = false := by simpa using hc
          rw [hcc, List.append_cons]
          apply ih r false (σ ++ [c]) (by omega)
            (by
              intro hx
              rcases List.mem_append.mp hx with h1 | h2
              · exact hnl h1
              · simp at h2
                exact hc h2.symm)
          · intro _ hall'
            have hallσ : allWs σ := fun x hx => hall' x (List.mem_append_left _ hx)
            have hwc : isPySpace c = true := hall' c (by simp)
            refine ⟨rfl, ?_⟩
            by_cases hσ : σ = []
            · subst hσ
              rcases hemp rfl rfl with hne | ⟨v, hv, _, _⟩
              · cases hne
              · exact absurd ((List.cons.injEq ..).mp hv).1 hc
            · obtain ⟨_, x, hx, hxw⟩ := hws hσ hallσ
              rw [List.takeWhile_cons, if_pos (by simpa using hc)] at hx
              rcases List.mem_cons.mp hx with rfl | hx'
              · rw [hwc] at hxw
                cases hxw
              · exact ⟨x, hx', hxw⟩
          · intro hx
            simp at hx
      | true =>
        cases hm : matchLen (c :: r) with
        | none =>
          have hc : c ≠ '\n' := matchLen_none_head hm
          rw [blankSub_true_no_match hm]
          have hcc : (c == '\n') = false := by simpa using hc
          rw [hcc, List.append_cons]
          apply ih r false (σ ++ [c]) (by omega)
            (by
              intro hx
              rcases List.mem_append.mp hx with h1 | h2
              · exact hnl h1
              · simp at h2
                exact hc h2.symm)
          · intro _ hall'
            have hallσ : allWs σ := fun x hx => hall' x (List.mem_append_left _ hx)
            have hwc : isPySpace c = true := hall' c (by simp)
            refine ⟨rfl, ?_⟩
            by_cases hσ : σ = []
            · obtain ⟨x, hx, hxw⟩ := matchLen_none_hasNonWs hm
              rw [List.takeWhile_cons, if_pos (by simpa using hc)] at hx
              rcases List.mem_cons.mp hx with rfl | hx'
              · rw [hwc] at hxw
                cases hxw
              · exact ⟨x, hx', hxw⟩
            · obtain ⟨hbf, _⟩ := hws hσ hallσ
              cases hbf
          · intro hx
            simp at hx
        | some k =>
          cases k with
          | zero =>
            have hc : c = '\n' := matchLen_some_zero_head hm
            subst hc
            rw [blankSub_true_empty_match hm]
            have hcc : (('\n' : Char) == '\n') = true := by decide
            rw [hcc]
            apply closeSeg r (by omega)
            · by_cases hσ : σ = []
              · exact Or.inl hσ
              · by_cases hall : allWs σ
                · obtain ⟨hbf, _⟩ := hws hσ hall
                  cases hbf
                · unfold allWs at hall
                  push_neg at hall
                  obtain ⟨x, hx, hxn⟩ := hall
                  exact Or.inr ⟨x, hx, by simpa using hxn⟩
            · intro _
              obtain ⟨hmn, hdv⟩ := matchLen_bridge hm
              obtain ⟨c', v', hr'', hc'⟩ := dollar_false_elim hdv
              exact ⟨c', v', hr'', hc', hmn⟩
          | succ k =>
            rw [blankSub_true_drop hm]
            apply ih ((c :: r).drop (k + 1)) _ σ
              (by
                rw [List.length_drop]
                simp only [List.length_cons]
                omega)
              hnl
            · intro hσ hall
              obtain ⟨hbf, _⟩ := hws hσ hall
              cases hbf
            · intro hσe _
              exact matchLen_after_drop hm

/-! ## Soundness of the UTF-8 decoder: every decodable byte string is the
encoding of its decoding -/

theorem charOfNat_toNat {n : Nat} (h : n.isValidChar) : (Char.ofNat n).toNat = n := by
  unfold Char.ofNat
  rw [dif_pos h]
  rfl

theorem char_toNat_lt (c : Char) : c.toNat < 0x110000 := by
  rcases c.valid with h | ⟨h1, h2⟩
  · exact Nat.lt_trans h (by norm_num)
  · exact h2

theorem utf8Encode_cons (c : Char) (cs : List Char) :
    utf8Encode (c :: cs) = utf8EncodeChar c ++ utf8Encode cs := by
  simp [utf8Encode]

set_option maxRecDepth 8192 in
theorem utf8DecodeOne_encode {l r : List Nat} {c : Char}
    (h : utf8DecodeOne l = some (c, r)) : utf8EncodeChar c ++ r = l := by
  unfold utf8DecodeOne at h
  split at h
  · cases h
  · rename_i b rest
    split at h
    · rename_i h1
      cases h
      have hv : Nat.isValidChar b := Or.inl (by omega)
      have ht : (Char.ofNat b).toNat = b := charOfNat_toNat hv
      unfold utf8EncodeChar
      rw [ht, if_pos h1]
      rfl
    · rename_i h1
      split at h
      · cases h
      · rename_i h2
        split at h
        · rename_i h3
          split at h
          · rename_i b1 r1
            split at h
            · rename_i hc1
              simp only [contByte, Bool.and_eq_true, decide_eq_true_eq] at hc1
              cases h
              have hv : Nat.isValidChar ((b - 0xC0) * 64 + (b1 - 0x80)) := Or.inl (by omega)
              have ht := charOfNat_toNat hv
              unfold utf8EncodeChar
              rw [ht, if_neg (by omega), if_pos (by omega)]
              show (0xC0 + ((b - 0xC0) * 64 + (b1 - 0x80)) / 64) ::
                  (0x80 + ((b - 0xC0) * 64 + (b1 - 0x80)) % 64) :: r = b :: b1 :: r
              have e1 : 0xC0 + ((b - 0xC0) * 64 + (b1 - 0x80)) / 64 = b := by omega
              have e2 : 0x80 + ((b - 0xC0) * 64 + (b1 - 0x80)) % 64 = b1 := by omega
              rw [e1, e2]
            · cases h
          · cases h
        · rename_i h3
          split at h
          · rename_i h4
            split at h
            · rename_i b1 b2 r2
              split at h
              · rename_i hc1
                obtain ⟨hlo, hhi, hb2⟩ := hc1
                simp only [contByte, Bool.and_eq_true, decide_eq_true_eq] at hb2
                have h80 : 0x80 ≤ b1 :=
                  le_trans (by unfold cont3lo; split <;> omega) hlo
                have hBF : b1 ≤ 0xBF :=
                  le_trans hhi (by unfold cont3hi; split <;> omega)
                have hE0 : b = 0xE0 → 0xA0 ≤ b1 := by
                  intro he
                  unfold cont3lo at hlo
                  rw [if_pos he] at hlo
                  exact hlo
                have hED : b = 0xED → b1 ≤ 0x9F := by
                  intro hd
                  unfold cont3hi at hhi
                  rw [if_pos hd] at hhi
                  exact hhi
                cases h
                have hv : Nat.isValidChar ((b - 0xE0) * 4096 + (b1 - 0x80) * 64 + (b2 - 0x80)) := by
                  unfold Nat.isValidChar
                  by_cases he : b = 0xE0
                  · have := hE0 he
                    subst he
                    omega
                  · by_cases hd : b = 0xED
                    · have := hED hd
                      subst hd
                      omega
                    · omega
                have hn3lo : 0x800 ≤ (b - 0xE0) * 4096 + (b1 - 0x80) * 64 + (b2 - 0x80) := by
                  by_cases he : b = 0xE0
                  · have := hE0 he
                    subst he
                    omega
                  · omega
                have ht := charOfNat_toNat hv
                unfold utf8EncodeChar
                rw [ht, if_neg (by omega), if_neg (by omega), if_pos (by omega)]
                show (0xE0 + ((b - 0xE0) * 4096 + (b1 - 0x80) * 64 + (b2 - 0x80)) / 4096) ::
                    (0x80 + ((b - 0xE0) * 4096 + (b1 - 0x80) * 64 + (b2 - 0x80)) / 64 % 64) ::
                    (0x80 + ((b - 0xE0) * 4096 + (b1 - 0x80) * 64 + (b2 - 0x80)) % 64) :: r =
                    b :: b1 :: b2 :: r
                have e1 : 0xE0 + ((b - 0xE0) * 4096 + (b1 - 0x80) * 64 + (b2 - 0x80)) / 4096 = b := by
                  omega
                have e2 : 0x80 + ((b - 0xE0) * 4096 + (b1 - 0x80) * 64 + (b2 - 0x80)) / 64 % 64 = b1 := by
                  omega
                have e3 : 0x80 + ((b - 0xE0) * 4096 + (b1 - 0x80) * 64 + (b2 - 0x80)) % 64 = b2 := by
                  omega
                rw [e1, e2, e3]
              · cases h
            · cases h
          · rename_i h4
            split at h
            · rename_i h5
              split at h
              · rename_i b1 b2 b3 r3
                split at h
                · rename_i hc1
                  obtain ⟨hlo, hhi, hb2, hb3⟩ := hc1
                  simp only [contByte, Bool.and_eq_true, decide_eq_true_eq] at hb2 hb3
                  have h80 : 0x80 ≤ b1 :=
                    le_trans (by unfold cont4lo; split <;> omega) hlo
                  have hBF : b1 ≤ 0xBF :=
                    le_trans hhi (by unfold cont4hi; split <;> omega)
                  have hF0 : b = 0xF0 → 0x90 ≤ b1 := by
                    intro he
                    unfold cont4lo at hlo
                    rw [if_pos he] at hlo
                    exact hlo
                  have hF4 : b = 0xF4 → b1 ≤ 0x8F := by
                    intro hd
                    unfold cont4hi at hhi
                    rw [if_pos hd] at hhi
                    exact hhi
                  cases h
                  have hv : Nat.isValidChar
                      ((b - 0xF0) * 262144 + (b1 - 0x80) * 4096 + (b2 - 0x80) * 64 + (b3 - 0x80)) := by
                    unfold Nat.isValidChar
                    by_cases he : b = 0xF0
                    · have := hF0 he
                      subst he
                      omega
                    · by_cases hd : b = 0xF4
                      · have := hF4 hd
                        subst hd
                        omega
                      · omega
                  have hn4lo : 0x10000 ≤
                      (b - 0xF0) * 262144 + (b1 - 0x80) * 4096 + (b2 - 0x80) * 64 + (b3 - 0x80) := by
                    by_cases he : b = 0xF0
                    · have := hF0 he
                      subst he
                      omega
                    · omega
                  have ht := charOfNat_toNat hv
                  unfold utf8EncodeChar
                  rw [ht, if_neg (by omega), if_neg (by omega), if_neg (by omega)]
                  show (0xF0 + ((b - 0xF0) * 262144 + (b1 - 0x80) * 4096 + (b2 - 0x80) * 64 +
                        (b3 - 0x80)) / 262144) ::
                      (0x80 + ((b - 0xF0) * 262144 + (b1 - 0x80) * 4096 + (b2 - 0x80) * 64 +
                        (b3 - 0x80)) / 4096 % 64) ::
                      (0x80 + ((b - 0xF0) * 262144 + (b1 - 0x80) * 4096 + (b2 - 0x80) * 64 +
                        (b3 - 0x80)) / 64 % 64) ::
                      (0x80 + ((b - 0xF0) * 262144 + (b1 - 0x80) * 4096 + (b2 - 0x80) * 64 +
                        (b3 - 0x80)) % 64) :: r = b :: b1 :: b2 :: b3 :: r
                  have e1 : 0xF0 + ((b - 0xF0) * 262144 + (b1 - 0x80) * 4096 + (b2 - 0x80) * 64 +
                      (b3 - 0x80)) / 262144 = b := by omega
                  have e2 : 0x80 + ((b - 0xF0) * 262144 + (b1 - 0x80) * 4096 + (b2 - 0x80) * 64 +
                      (b3 - 0x80)) / 4096 % 64 = b1 := by omega
                  have e3 : 0x80 + ((b - 0xF0) * 262144 + (b1 - 0x80) * 4096 + (b2 - 0x80) * 64 +
                      (b3 - 0x80)) / 64 % 64 = b2 := by omega
                  have e4 : 0x80 + ((b - 0xF0) * 262144 + (b1 - 0x80) * 4096 + (b2 - 0x80) * 64 +
                      (b3 - 0x80)) % 64 = b3 := by omega
                  rw [e1, e2, e3, e4]
                · cases h
              · cases h
            · cases h

theorem utf8Decode_encode_bound :
    ∀ (n : Nat) (bs : List Nat) (cs : List Char), bs.length ≤ n →
      utf8Decode bs = some cs → utf8Encode cs = bs := by
  intro n
  induction n with
  | zero =>
    intro bs cs hl h
    have : bs = [] := List.length_eq_zero.mp (Nat.le_zero.mp hl)
    subst this
    cases h
    rfl
  | succ n ih =>
    intro bs cs hl h
    rw [utf8Decode_eq] at h
    cases bs with
    | nil =>
      cases h
      rfl
    | cons b rest =>
      simp only [List.length_cons] at hl
      have h0 : (match utf8DecodeOne (b :: rest) with
          | some (c, r) => (utf8Decode r).map (fun cs => c :: cs)
          | none => none) = some cs := h
      cases hm : utf8DecodeOne (b :: rest) with
      | none => rw [hm] at h0; cases h0
      | some cr =>
        obtain ⟨c, r⟩ := cr
        rw [hm] at h0
        have h' : (utf8Decode r).map (fun cs => c :: cs) = some cs := h0
        rw [Option.map_eq_some'] at h'
        obtain ⟨cs', hcs', rfl⟩ := h'
        have hlen := utf8DecodeOne_length hm
        simp only [List.length_cons] at hlen
        rw [utf8Encode_cons, ih r cs' (by omega) hcs']
        exact utf8DecodeOne_encode hm

/-- Soundness: a byte string accepted by the UTF-8 decoder is exactly the
UTF-8 encoding of the decoded text — so a byte string that is not the
encoding of any text is rejected. -/
theorem utf8Decode_encode {bs : List Nat} {cs : List Char}
    (h : utf8Decode bs = some cs) : utf8Encode cs = bs :=
  utf8Decode_encode_bound bs.length bs cs (le_refl _) h

theorem utf8EncodeChar_head_le (c : Char) :
    ∃ b bs', utf8EncodeChar c = b :: bs' ∧ b ≤ 0xF4 := by
  have hlt := char_toNat_lt c
  unfold utf8EncodeChar
  by_cases h1 : c.toNat < 0x80
  · rw [if_pos h1]
    exact ⟨_, _, rfl, by omega⟩
  · rw [if_neg h1]
    by_cases h2 : c.toNat < 0x800
    · rw [if_pos h2]
      exact ⟨_, _, rfl, by omega⟩
    · rw [if_neg h2]
      by_cases h3 : c.toNat < 0x10000
      · rw [if_pos h3]
        exact ⟨_, _, rfl, by omega⟩
      · rw [if_neg h3]
        exact ⟨_, _, rfl, by omega⟩

theorem utf8Encode_ne_ff (cs : List Char) : utf8Encode cs ≠ [0xFF] := by
  cases cs with
  | nil => simp [utf8Encode]
  | cons c cs' =>
    rw [utf8Encode_cons]
    obtain ⟨b, bs', hb, hle⟩ := utf8EncodeChar_head_le c
    rw [hb]
    intro hc
    rw [List.cons_append] at hc
    have : b = 0xFF := ((List.cons.injEq ..).mp hc).1
    omega

/-! ## UTF-8 completeness: decoding an encoding recovers the text -/

theorem utf8DecodeOne_one {b : Nat} (rest : List Nat) (h1 : b < 0x80) :
    utf8DecodeOne (b :: rest) = some (Char.ofNat b, rest) := by
  simp only [utf8DecodeOne]
  rw [if_pos h1]

theorem utf8DecodeOne_two {b b1 : Nat} (rest : List Nat) (h1 : 0xC2 ≤ b) (h2 : b ≤ 0xDF)
    (hc : contByte b1 = true) :
    utf8DecodeOne (b :: b1 :: rest) = some (Char.ofNat ((b - 0xC0) * 64 + (b1 - 0x80)), rest) := by
  simp only [utf8DecodeOne]
  rw [if_neg (by omega), if_neg (by omega), if_pos (by omega), if_pos hc]

theorem utf8DecodeOne_three {b b1 b2 : Nat} (rest : List Nat) (h1 : 0xE0 ≤ b) (h2 : b ≤ 0xEF)
    (hc : cont3lo b ≤ b1 ∧ b1 ≤ cont3hi b ∧ contByte b2 = true) :
    utf8DecodeOne (b :: b1 :: b2 :: rest) =
      some (Char.ofNat ((b - 0xE0) * 4096 + (b1 - 0x80) * 64 + (b2 - 0x80)), rest) := by
  simp only [utf8DecodeOne]
  rw [if_neg (by omega), if_neg (by omega), if_neg (by omega), if_pos (by omega), if_pos hc]

theorem utf8DecodeOne_four {b b1 b2 b3 : Nat} (rest : List Nat) (h1 : 0xF0 ≤ b) (h2 : b ≤ 0xF4)
    (hc : cont4lo b ≤ b1 ∧ b1 ≤ cont4hi b ∧ contByte b2 = true ∧ contByte b3 = true) :
    utf8DecodeOne (b :: b1 :: b2 :: b3 :: rest) =
      some (Char.ofNat
        ((b - 0xF0) * 262144 + (b1 - 0x80) * 4096 + (b2 - 0x80) * 64 + (b3 - 0x80)), rest) := by
  simp only [utf8DecodeOne]
  rw [if_neg (by omega), if_neg (by omega), if_neg (by omega), if_neg (by omega),
    if_pos (by omega), if_pos hc]

theorem utf8DecodeOne_encodeChar (c : Char) (rest : List Nat) :
    utf8DecodeOne (utf8EncodeChar c ++ rest) = some (c, rest) := by
  have hv : c.toNat.isValidChar := c.valid
  have hlt : c.toNat < 0x110000 := char_toNat_lt c
  unfold Nat.isValidChar at hv
  by_cases h1 : c.toNat < 0x80
  · have he : utf8EncodeChar c = [c.toNat] := by
      unfold utf8EncodeChar
      rw [if_pos h1]
    rw [he, List.singleton_append, utf8DecodeOne_one rest h1, Char.ofNat_toNat]
  · by_cases h2 : c.toNat < 0x800
    · have he : utf8EncodeChar c = [0xC0 + c.toNat / 64, 0x80 + c.toNat % 64] := by
        unfold utf8EncodeChar
        rw [if_neg h1, if_pos h2]
      rw [he]
      show utf8DecodeOne ((0xC0 + c.toNat / 64) :: (0x80 + c.toNat % 64) :: rest) = some (c, rest)
      rw [utf8DecodeOne_two rest (by omega) (by omega)
        (by unfold contByte; simp only [Bool.and_eq_true, decide_eq_true_eq]; omega)]
      have harg : (0xC0 + c.toNat / 64 - 0xC0) * 64 + (0x80 + c.toNat % 64 - 0x80) = c.toNat := by
        omega
      rw [harg, Char.ofNat_toNat]
    · by_cases h3 : c.toNat < 0x10000
      · have he : utf8EncodeChar c =
            [0xE0 + c.toNat / 4096, 0x80 + (c.toNat / 64) % 64, 0x80 + c.toNat % 64] := by
          unfold utf8EncodeChar
          rw [if_neg h1, if_neg h2, if_pos h3]
        rw [he]
        show utf8DecodeOne ((0xE0 + c.toNat / 4096) :: (0x80 + (c.toNat / 64) % 64) ::
            (0x80 + c.toNat % 64) :: rest) = some (c, rest)
        have hcond : cont3lo (0xE0 + c.toNat / 4096) ≤ 0x80 + (c.toNat / 64) % 64 ∧
            0x80 + (c.toNat / 64) % 64 ≤ cont3hi (0xE0 + c.toNat / 4096) ∧
            contByte (0x80 + c.toNat % 64) = true := by
          refine ⟨?_, ?_, ?_⟩
          · unfold cont3lo
            split
            · omega
            · omega
          · unfold cont3hi
            split
            · rcases hv with ha | ⟨hb, _⟩
              · omega
              · omega
            · omega
          · unfold contByte
            simp only [Bool.and_eq_true, decide_eq_true_eq]
            omega
        rw [utf8DecodeOne_three rest (by omega) (by omega) hcond]
        have harg : (0xE0 + c.toNat / 4096 - 0xE0) * 4096 +
            (0x80 + (c.toNat / 64) % 64 - 0x80) * 64 + (0x80 + c.toNat % 64 - 0x80) = c.toNat := by
          omega
        rw [harg, Char.ofNat_toNat]
      · have he : utf8EncodeChar c = [0xF0 + c.toNat / 262144, 0x80 + (c.toNat / 4096) % 64,
            0x80 + (c.toNat / 64) % 64, 0x80 + c.toNat % 64] := by
          unfold utf8EncodeChar
          rw [if_neg h1, if_neg h2, if_neg h3]
        rw [he]
        show utf8DecodeOne ((0xF0 + c.toNat / 262144) :: (0x80 + (c.toNat / 4096) % 64) ::
            (0x80 + (c.toNat / 64) % 64) :: (0x80 + c.toNat % 64) :: rest) = some (c, rest)
        have hcond : cont4lo (0xF0 + c.toNat / 262144) ≤ 0x80 + (c.toNat / 4096) % 64 ∧
            0x80 + (c.toNat / 4096) % 64 ≤ cont4hi (0xF0 + c.toNat / 262144) ∧
            contByte (0x80 + (c.toNat / 64) % 64) = true ∧
            contByte (0x80 + c.toNat % 64) = true := by
          refine ⟨?_, ?_, ?_, ?_⟩
          · unfold cont4lo
            split
            · omega
            · omega
          · unfold cont4hi
            split
            · omega
            · omega
          · unfold contByte
            simp only [Bool.and_eq_true, decide_eq_true_eq]
            omega
          · unfold contByte
            simp only [Bool.and_eq_true, decide_eq_true_eq]
            omega
        rw [utf8DecodeOne_four rest (by omega) (by omega) hcond]
        have harg : (0xF0 + c.toNat / 262144 - 0xF0) * 262144 +
            (0x80 + (c.toNat / 4096) % 64 - 0x80) * 4096 +
            (0x80 + (c.toNat / 64) % 64 - 0x80) * 64 + (0x80 + c.toNat % 64 - 0x80) = c.toNat := by
          omega
        rw [harg, Char.ofNat_toNat]

theorem utf8Decode_encode_complete : ∀ (cs : List Char),
    utf8Decode (utf8Encode cs) = some cs := by
  intro cs
  induction cs with
  | nil => rfl
  | cons c cs' ih =>
    rw [show utf8Encode (c :: cs') = utf8EncodeChar c ++ utf8Encode cs' from
      utf8Encode_cons c cs']
    obtain ⟨b, bs', hb, _⟩ := utf8EncodeChar_head_le c
    rw [utf8Decode_eq, hb, List.cons_append]
    have hdec : utf8DecodeOne (b :: (bs' ++ utf8Encode cs')) = some (c, utf8Encode cs') := by
      rw [← List.cons_append, ← hb]
      exact utf8DecodeOne_encodeChar c (utf8Encode cs')
    show (match utf8DecodeOne (b :: (bs' ++ utf8Encode cs')) with
      | some (c, r) => (utf8Decode r).map (fun cs => c :: cs)
      | none => none) = some (c :: cs')
    rw [hdec]
    show (utf8Decode (utf8Encode cs')).map (fun cs => c :: cs) = some (c :: cs')
    rw [ih]
    rfl

/-! ## Character provenance: every pass only keeps characters of its input -/

theorem headerMatch_subset {l rest : List Char} (h : headerMatch l = some rest) :
    ∀ x ∈ rest, x ∈ l := by
  intro x hx
  unfold headerMatch at h
  split at h
  · cases h
  · cases hd : l.dropWhile isPyDigit with
    | nil => rw [hd] at h; cases h
    | cons c r =>
      rw [hd] at h
      have h' : (if c = '\n' then timeHead r else none) = some rest := h
      by_cases hcn : c = '\n'
      · rw [if_pos hcn] at h'
        unfold timeHead at h'
        by_cases htc : timeCheck (r.take 30) = true
        · rw [if_pos htc] at h'
          cases h'
          have h1 : x ∈ r := List.drop_subset 30 r hx
          have h2 : x ∈ l.dropWhile isPyDigit := by
            rw [hd]
            exact List.mem_cons_of_mem c h1
          exact (List.dropWhile_sublist _).subset h2
        · rw [if_neg htc] at h'
          cases h'
      · rw [if_neg hcn] at h'
        cases h'

theorem tagMatch_subset {l rest : List Char} (h : tagMatch l = some rest) :
    ∀ x ∈ rest, x ∈ l := by
  obtain ⟨c₂, cs, hl, _, hdw⟩ := tagMatch_some_inv h
  intro x hx
  have h1 : x ∈ (c₂ :: cs).dropWhile (fun z => z != '>') := by
    rw [hdw]
    exact List.mem_cons_of_mem _ hx
  have h2 : x ∈ c₂ :: cs := (List.dropWhile_sublist _).subset h1
  rw [hl]
  exact List.mem_cons_of_mem _ h2

theorem stripHeaders_subset_bound :
    ∀ (n : Nat) (l : List Char), l.length ≤ n → ∀ x ∈ stripHeaders l, x ∈ l := by
  intro n
  induction n with
  | zero =>
    intro l hl x hx
    have hnil : l = [] := List.length_eq_zero.mp (Nat.le_zero.mp hl)
    subst hnil
    exact hx
  | succ n ih =>
    intro l hl x hx
    rw [stripHeaders_eq] at hx
    cases hm : headerMatch l with
    | some rest =>
      rw [hm] at hx
      have hx' : x ∈ stripHeaders rest := hx
      have hlen := headerMatch_length hm
      exact headerMatch_subset hm x (ih rest (by omega) x hx')
    | none =>
      rw [hm] at hx
      cases l with
      | nil => exact hx
      | cons c r =>
        have hx' : x ∈ c :: stripHeaders r := hx
        simp only [List.length_cons] at hl
        rcases List.mem_cons.mp hx' with rfl | hx2
        · exact List.mem_cons_self _ _
        · exact List.mem_cons_of_mem _ (ih r (by omega) x hx2)

theorem stripHeaders_subset {l : List Char} : ∀ x ∈ stripHeaders l, x ∈ l :=
  stripHeaders_subset_bound l.length l (le_refl _)

theorem stripTags_subset_bound :
    ∀ (n : Nat) (l : List Char), l.length ≤ n → ∀ x ∈ stripTags l, x ∈ l := by
  intro n
  induction n with
  | zero =>
    intro l hl x hx
    have hnil : l = [] := List.length_eq_zero.mp (Nat.le_zero.mp hl)
    subst hnil
    exact hx
  | succ n ih =>
    intro l hl x hx
    rw [stripTags_eq] at hx
    cases l with
    | nil => exact hx
    | cons c r =>
      simp only [List.length_cons] at hl
      cases hm : tagMatch (c :: r) with
      | some rest =>
        rw [hm] at hx
        have hx' : x ∈ stripTags rest := hx
        have hlen := tagMatch_length hm
        simp only [List.length_cons] at hlen
        exact tagMatch_subset hm x (ih rest (by omega) x hx')
      | none =>
        rw [hm] at hx
        have hx' : x ∈ c :: stripTags r := hx
        rcases List.mem_cons.mp hx' with rfl | hx2
        · exact List.mem_cons_self _ _
        · exact List.mem_cons_of_mem _ (ih r (by omega) x hx2)

theorem stripTags_subset {l : List Char} : ∀ x ∈ stripTags l, x ∈ l :=
  stripTags_subset_bound l.length l (le_refl _)

theorem blankSub_subset_bound :
    ∀ (n : Nat) (bol : Bool) (l : List Char), l.length ≤ n → ∀ x ∈ blankSub bol l, x ∈ l := by
  intro n
  induction n with
  | zero =>
    intro bol l hl x hx
    have hnil : l = [] := List.length_eq_zero.mp (Nat.le_zero.mp hl)
    subst hnil
    exact hx
  | succ n ih =>
    intro bol l hl x hx
    cases l with
    | nil => exact hx
    | cons c r =>
      simp only [List.length_cons] at hl
      cases bol with
      | false =>
        rw [blankSub_false_cons] at hx
        rcases List.mem_cons.mp hx with rfl | hx2
        · exact List.mem_cons_self _ _
        · exact List.mem_cons_of_mem _ (ih (c == '\n') r (by omega) x hx2)
      | true =>
        cases hm : matchLen (c :: r) with
        | none =>
          rw [blankSub_true_no_match hm] at hx
          rcases List.mem_cons.mp hx with rfl | hx2
          · exact List.mem_cons_self _ _
          · exact List.mem_cons_of_mem _ (ih (c == '\n') r (by omega) x hx2)
        | some k =>
          cases k with
          | zero =>
            rw [blankSub_true_empty_match hm] at hx
            rcases List.mem_cons.mp hx with rfl | hx2
            · exact List.mem_cons_self _ _
            · exact List.mem_cons_of_mem _ (ih (c == '\n') r (by omega) x hx2)
          | succ k =>
            rw [blankSub_true_drop hm] at hx
            have hx' := ih (((c :: r).getD k ' ') == '\n') ((c :: r).drop (k + 1))
              (by simp only [List.length_drop, List.length_cons]; omega) x hx
            exact List.drop_subset (k + 1) (c :: r) hx'

theorem blankSub_subset {bol : Bool} {l : List Char} : ∀ x ∈ blankSub bol l, x ∈ l :=
  blankSub_subset_bound l.length bol l (le_refl _)

/-! ## `splitlines` versus `splitOnNl` -/

theorem splitlines_cons_nl (r : List Char) :
    splitlines ('\n' :: r) = [] :: splitlines r := by
  have ht : ('\n' :: r).takeWhile (fun x => !isLineBoundary x) = [] := by
    rw [List.takeWhile_cons, if_neg (by decide)]
  have hd : ('\n' :: r).dropWhile (fun x => !isLineBoundary x) = '\n' :: r := by
    rw [List.dropWhile_cons, if_neg (by decide)]
  have hlr : lineRest ('\n' :: r) = r := by
    unfold lineRest
    have hne : ('\n' :: r).take 2 ≠ ['\r', '\n'] := by
      rw [List.take_succ_cons]
      intro hco
      exact absurd ((List.cons.injEq ..).mp hco).1 (by decide)
    rw [if_neg hne, List.drop_succ_cons, List.drop_zero]
  rw [splitlines_eq]
  show ('\n' :: r).takeWhile (fun x => !isLineBoundary x) ::
      (if (('\n' :: r).dropWhile (fun x => !isLineBoundary x)).isEmpty then []
       else splitlines (lineRest (('\n' :: r).dropWhile (fun x => !isLineBoundary x)))) =
    [] :: splitlines r
  rw [ht, hd]
  show ([] : List Char) ::
      (if ('\n' :: r).isEmpty then [] else splitlines (lineRest ('\n' :: r))) =
    [] :: splitlines r
  rw [hlr]
  rfl

theorem splitlines_cons_not_bnd {c : Char} (hc : isLineBoundary c = false) {r : List Char}
    (hr : r ≠ []) :
    splitlines (c :: r) = (splitlines r).modifyHead (c :: ·) := by
  obtain ⟨y, ys, rfl⟩ := List.exists_cons_of_ne_nil hr
  have hpc : (fun x => !isLineBoundary x) c = true := by
    show (!isLineBoundary c) = true
    rw [hc]
    rfl
  have ht : (c :: y :: ys).takeWhile (fun x => !isLineBoundary x)
      = c :: (y :: ys).takeWhile (fun x => !isLineBoundary x) := by
    rw [List.takeWhile_cons, if_pos hpc]
  have hd : (c :: y :: ys).dropWhile (fun x => !isLineBoundary x)
      = (y :: ys).dropWhile (fun x => !isLineBoundary x) := by
    rw [List.dropWhile_cons, if_pos hpc]
  rw [splitlines_eq (c :: y :: ys), splitlines_eq (y :: ys)]
  show (c :: y :: ys).takeWhile (fun x => !isLineBoundary x) ::
      (if ((c :: y :: ys).dropWhile (fun x => !isLineBoundary x)).isEmpty then []
       else splitlines (lineRest ((c :: y :: ys).dropWhile (fun x => !isLineBoundary x)))) =
    ((y :: ys).takeWhile (fun x => !isLineBoundary x) ::
      (if ((y :: ys).dropWhile (fun x => !isLineBoundary x)).isEmpty then []
       else splitlines (lineRest ((y :: ys).dropWhile (fun x => !isLineBoundary x))))).modifyHead
        (c :: ·)
  rw [ht, hd]
  rfl

theorem splitlines_singleton_not_bnd {c : Char} (hc : isLineBoundary c = false) :
    splitlines [c] = [[c]] := by
  have hpc : (fun x => !isLineBoundary x) c = true := by
    show (!isLineBoundary c) = true
    rw [hc]
    rfl
  rw [splitlines_eq]
  show [c].takeWhile (fun x => !isLineBoundary x) ::
      (if ([c].dropWhile (fun x => !isLineBoundary x)).isEmpty then []
       else splitlines (lineRest ([c].dropWhile (fun x => !isLineBoundary x)))) = [[c]]
  rw [List.takeWhile_cons, if_pos hpc, List.dropWhile_cons, if_pos hpc]
  rfl

theorem splitlines_cons_ne_nil (c : Char) (r : List Char) : splitlines (c :: r) ≠ [] := by
  rw [splitlines_eq]
  show ((c :: r).takeWhile (fun x => !isLineBoundary x) ::
      (if ((c :: r).dropWhile (fun x => !isLineBoundary x)).isEmpty then []
       else splitlines (lineRest ((c :: r).dropWhile (fun x => !isLineBoundary x))))) ≠ []
  exact List.cons_ne_nil _ _

theorem modifyHead_append_left (f : List Char → List Char) {A : List (List Char)}
    (B : List (List Char)) (hA : A ≠ []) :
    (A ++ B).modifyHead f = A.modifyHead f ++ B := by
  obtain ⟨a, as, rfl⟩ := List.exists_cons_of_ne_nil hA
  rfl

theorem noAdjEmpty_append_left : ∀ {A B : List (List Char)}, noAdjEmpty (A ++ B) → noAdjEmpty A
  | [], _, _ => trivial
  | [_], _, _ => trivial
  | a :: b :: A', B, h => by
    rw [List.cons_append, List.cons_append] at h
    rw [noAdjEmpty_cons_cons] at h
    exact noAdjEmpty_cons_cons.mpr ⟨h.1, noAdjEmpty_append_left (A := b :: A') (B := B)
      (by rw [List.cons_append]; exact h.2)⟩

theorem getLast?_cons_ne_nil {α : Type} {c : α} {r : List α} (h : r ≠ []) :
    (c :: r).getLast? = r.getLast? := by
  cases r with
  | nil => exact absurd rfl h
  | cons y ys => simp [List.getLast?_cons_cons]

/-- Characters of the text whose Python line boundaries are all plain
newlines: on such text `str.splitlines` and the regex positions `^`/`$`
agree about what a line is. -/
def onlyNl (l : List Char) : Prop := ∀ c ∈ l, isLineBoundary c = true → c = '\n'

/-- On text whose only line-boundary characters are `'\n'`,
`str.splitlines` returns exactly the `'\n'`-separated segments, except that
a final empty segment (from a trailing newline, or from empty text) is
dropped. -/
theorem splitOnNl_splitlines : ∀ {w : List Char}, onlyNl w →
    splitOnNl w = splitlines w ++
      (if w.getLast? = some '\n' ∨ w = [] then [[]] else []) := by
  intro w
  induction w with
  | nil =>
    intro _
    show splitOnNl [] = splitlines [] ++
      (if ([] : List Char).getLast? = some '\n' ∨ ([] : List Char) = [] then [[]] else [])
    rw [if_pos (Or.inr rfl)]
    rfl
  | cons c r ih =>
    intro h
    have hr : onlyNl r := fun x hx hb => h x (List.mem_cons_of_mem c hx) hb
    by_cases hc : c = '\n'
    · subst hc
      rw [splitOnNl_cons_nl, splitlines_cons_nl, ih hr, List.cons_append]
      refine congrArg ([] :: ·) (congrArg (splitlines r ++ ·) ?_)
      by_cases hrn : r = []
      · subst hrn
        have hg1 : (['\n'] : List Char).getLast? = some '\n' := by simp
        rw [if_pos (Or.inr rfl), if_pos (Or.inl hg1)]
      · rw [getLast?_cons_ne_nil hrn]
        by_cases hg : r.getLast? = some '\n'
        · rw [if_pos (Or.inl hg), if_pos (Or.inl hg)]
        · have h1 : ¬(r.getLast? = some '\n' ∨ r = []) := by
            intro hco
            rcases hco with ha | hb
            · exact hg ha
            · exact hrn hb
          have h2 : ¬(r.getLast? = some '\n' ∨ ('\n' :: r) = []) := by
            intro hco
            rcases hco with ha | hb
            · exact hg ha
            · exact List.cons_ne_nil _ _ hb
          rw [if_neg h1, if_neg h2]
    · have hbnd : isLineBoundary c = false := by
        cases hb : isLineBoundary c with
        | false => rfl
        | true => exact absurd (h c (List.mem_cons_self c r) hb) hc
      by_cases hrn : r = []
      · subst hrn
        rw [splitOnNl_cons_ne hc, splitlines_singleton_not_bnd hbnd]
        have h1 : ¬([c].getLast? = some '\n' ∨ ([c] : List Char) = []) := by
          intro hco
          rcases hco with ha | hb
          · exact hc (Option.some.inj (show some c = some '\n' from ha))
          · cases hb
        rw [if_neg h1, List.append_nil]
        rfl
      · have hsne : splitlines r ≠ [] := by
          obtain ⟨y, ys, rfl⟩ := List.exists_cons_of_ne_nil hrn
          exact splitlines_cons_ne_nil y ys
        rw [splitOnNl_cons_ne hc, splitlines_cons_not_bnd hbnd hrn, ih hr,
          modifyHead_append_left _ _ hsne]
        refine congrArg ((splitlines r).modifyHead (c :: ·) ++ ·) ?_
        rw [getLast?_cons_ne_nil hrn]
        by_cases hg : r.getLast? = some '\n'
        · rw [if_pos (Or.inl hg), if_pos (Or.inl hg)]
        · have h1 : ¬(r.getLast? = some '\n' ∨ r = []) := by
            intro hco
            rcases hco with ha | hb
            · exact hg ha
            · exact hrn hb
          have h2 : ¬(r.getLast? = some '\n' ∨ (c :: r) = []) := by
            intro hco
            rcases hco with ha | hb
            · exact hg ha
            · exact List.cons_ne_nil _ _ hb
          rw [if_neg h1, if_neg h2]

/-- Cutting `"\n".join(pieces)` at the newlines recovers the pieces, when
none of the pieces contains a newline. -/
theorem splitOnNl_joinNl : ∀ {S : List (List Char)}, S ≠ [] → (∀ s ∈ S, '\n' ∉ s) →
    splitOnNl (joinSep ['\n'] S) = S
  | [], h, _ => absurd rfl h
  | [x], _, h => by
    show splitOnNl x = [x]
    exact splitOnNl_no_nl (h x (List.mem_cons_self _ _))
  | x :: y :: ys, _, h => by
    show splitOnNl (x ++ ['\n'] ++ joinSep ['\n'] (y :: ys)) = x :: y :: ys
    rw [List.append_assoc, List.singleton_append,
      splitOnNl_append _ (h x (List.mem_cons_self _ _)), splitOnNl_cons_nl,
      splitOnNl_joinNl (List.cons_ne_nil y ys) (fun s hs => h s (List.mem_cons_of_mem x hs))]
    show (x ++ []) :: y :: ys = x :: y :: ys
    rw [List.append_nil]

/-! ## The blank-line pass and `splitlines` fix a well-shaped join -/

theorem joinNl_cons_cons (x y : List Char) (ys : List (List Char)) :
    joinSep ['\n'] (x :: y :: ys) = x ++ '\n' :: joinSep ['\n'] (y :: ys) := by
  show x ++ ['\n'] ++ joinSep ['\n'] (y :: ys) = _
  rw [List.append_assoc]
  rfl

theorem wsRun_lt_of_non_ws : ∀ {s : List Char}, (∃ c ∈ s, isPySpace c = false) →
    wsRun s < s.length
  | [], h => by
    obtain ⟨c, hc, _⟩ := h
    exact absurd hc (List.not_mem_nil c)
  | c :: s', h => by
    cases hc : isPySpace c with
    | false =>
      rw [wsRun_cons_not_ws hc]
      simp
    | true =>
      obtain ⟨d, hd, hdn⟩ := h
      rcases List.mem_cons.mp hd with rfl | hd'
      · rw [hc] at hdn
        cases hdn
      · rw [wsRun_cons_ws hc]
        simp only [List.length_cons]
        have := wsRun_lt_of_non_ws ⟨d, hd', hdn⟩
        omega

theorem wsRun_append_of_non_ws : ∀ {s : List Char} (X : List Char),
    (∃ c ∈ s, isPySpace c = false) → wsRun (s ++ X) = wsRun s
  | [], _, h => by
    obtain ⟨c, hc, _⟩ := h
    exact absurd hc (List.not_mem_nil c)
  | c :: s', X, h => by
    cases hc : isPySpace c with
    | false => rw [List.cons_append, wsRun_cons_not_ws hc, wsRun_cons_not_ws hc]
    | true =>
      obtain ⟨d, hd, hdn⟩ := h
      rcases List.mem_cons.mp hd with rfl | hd'
      · rw [hc] at hdn
        cases hdn
      · rw [List.cons_append, wsRun_cons_ws hc, wsRun_cons_ws hc,
          wsRun_append_of_non_ws X ⟨d, hd', hdn⟩]

theorem dollar_drop_in_seg {s : List Char} (X : List Char) {j : Nat}
    (hnl : '\n' ∉ s) (hj : j < s.length) : dollar ((s ++ X).drop j) = false := by
  rw [List.drop_append_of_le_length (by omega), List.drop_eq_getElem_cons hj,
    List.cons_append, dollar_cons]
  have hmem : s[j] ∈ s := List.getElem_mem hj
  exact beq_eq_false_iff_ne.mpr (fun he => hnl (he ▸ hmem))

theorem matchLen_none_append {s : List Char} (X : List Char)
    (hnl : '\n' ∉ s) (hw : ∃ c ∈ s, isPySpace c = false) :
    matchLen (s ++ X) = none := by
  unfold matchLen
  apply matchLenAux_none_of
  intro j hj
  rw [wsRun_append_of_non_ws X hw] at hj
  have hlt := wsRun_lt_of_non_ws hw
  exact dollar_drop_in_seg X hnl (by omega)

theorem matchLenAux_some_zero_of :
    ∀ {m : Nat} {l : List Char}, dollar l = true →
      (∀ j, 1 ≤ j → j ≤ m → dollar (l.drop j) = false) → matchLenAux m l = some 0 := by
  intro m
  induction m with
  | zero =>
    intro l h0 _
    unfold matchLenAux
    rw [if_pos h0]
  | succ m ih =>
    intro l h0 hj
    unfold matchLenAux
    rw [if_neg (by simpa using hj (m + 1) (by omega) (le_refl _))]
    exact ih h0 (fun j hj1 hj2 => hj j hj1 (by omega))

theorem matchLen_nl_seg {s : List Char} (X : List Char)
    (hnl : '\n' ∉ s) (hw : ∃ c ∈ s, isPySpace c = false) :
    matchLen ('\n' :: (s ++ X)) = some 0 := by
  unfold matchLen
  apply matchLenAux_some_zero_of
  · rw [dollar_cons]
    rfl
  · intro j hj1 hj2
    obtain ⟨j', rfl⟩ : ∃ j', j = j' + 1 := ⟨j - 1, by omega⟩
    rw [List.drop_succ_cons]
    rw [wsRun_cons_ws (by decide), wsRun_append_of_non_ws X hw] at hj2
    have hlt := wsRun_lt_of_non_ws hw
    exact dollar_drop_in_seg X hnl (by omega)

theorem blankSub_false_append : ∀ {ρ : List Char} (X : List Char), '\n' ∉ ρ →
    blankSub false (ρ ++ X) = ρ ++ blankSub false X
  | [], X, _ => by rw [List.nil_append, List.nil_append]
  | c :: ρ', X, h => by
    rw [List.cons_append, blankSub_false_cons]
    have hc : (c == '\n') = false :=
      beq_eq_false_iff_ne.mpr (fun he => h (List.mem_cons.mpr (Or.inl he.symm)))
    rw [hc, blankSub_false_append X (fun hx => h (List.mem_cons_of_mem c hx)),
      List.cons_append]

/-- The blank-line pass leaves the `"\n".join` of segments unchanged when no
segment is a nonempty whitespace-only line and no two adjacent segments are
empty: on a nonempty segment no `^\s*$` match starts, and on an empty
segment only the empty match is found. -/
theorem blankSub_joinNl_fix : ∀ (T : List (List Char)),
    (∀ s ∈ T, '\n' ∉ s ∧ goodSeg s) → noAdjEmpty T →
    blankSub true (joinSep ['\n'] T) = joinSep ['\n'] T
  | [], _, _ => rfl
  | [s], hg, _ => by
    show blankSub true s = s
    rcases (hg s (List.mem_cons_self _ _)).2 with rfl | hw
    · rfl
    · obtain ⟨c, hcm, hcw⟩ := hw
      cases s with
      | nil => exact absurd hcm (List.not_mem_nil c)
      | cons c0 s' =>
        have hnl := (hg (c0 :: s') (List.mem_cons_self _ _)).1
        have hm : matchLen ((c0 :: s') ++ []) = none :=
          matchLen_none_append [] hnl ⟨c, hcm, hcw⟩
        rw [List.append_nil] at hm
        rw [blankSub_true_no_match hm]
        have hc0 : (c0 == '\n') = false := beq_eq_false_iff_ne.mpr
          (fun he => hnl (List.mem_cons.mpr (Or.inl he.symm)))
        rw [hc0]
        have hext : blankSub false (s' ++ []) = s' ++ blankSub false [] :=
          blankSub_false_append [] (fun hx => hnl (List.mem_cons_of_mem c0 hx))
        rw [show blankSub false ([] : List Char) = [] from rfl, List.append_nil] at hext
        rw [hext]
  | [] :: t :: T₃, hg, hna => by
    have htne : t ≠ [] := fun he => (noAdjEmpty_cons_cons.mp hna).1 ⟨rfl, he⟩
    have hgt := hg t (List.mem_cons_of_mem _ (List.mem_cons_self _ _))
    have htw : ∃ c ∈ t, isPySpace c = false := by
      rcases hgt.2 with he | hw
      · exact absurd he htne
      · exact hw
    have hrec := blankSub_joinNl_fix (t :: T₃) (fun s hs => hg s (List.mem_cons_of_mem _ hs))
      (noAdjEmpty_cons_cons.mp hna).2
    have hshape : ∃ X, joinSep ['\n'] (t :: T₃) = t ++ X := by
      cases T₃ with
      | nil =>
        refine ⟨[], ?_⟩
        rw [List.append_nil]
        rfl
      | cons t' T₄ => exact ⟨'\n' :: joinSep ['\n'] (t' :: T₄), joinNl_cons_cons t t' T₄⟩
    obtain ⟨X, hX⟩ := hshape
    show blankSub true ([] ++ ['\n'] ++ joinSep ['\n'] (t :: T₃)) =
      [] ++ ['\n'] ++ joinSep ['\n'] (t :: T₃)
    rw [List.nil_append, List.singleton_append, hX]
    have hm : matchLen ('\n' :: (t ++ X)) = some 0 := matchLen_nl_seg X hgt.1 htw
    rw [blankSub_true_empty_match hm,
      show (('\n' : Char) == '\n') = true from rfl, ← hX, hrec]
  | (c0 :: s') :: t :: T₃, hg, hna => by
    have hgs := hg (c0 :: s') (List.mem_cons_self _ _)
    have hsw : ∃ c ∈ c0 :: s', isPySpace c = false := by
      rcases hgs.2 with he | hw
      · exact absurd he (List.cons_ne_nil c0 s')
      · exact hw
    have hrec := blankSub_joinNl_fix (t :: T₃) (fun s hs => hg s (List.mem_cons_of_mem _ hs))
      (noAdjEmpty_cons_cons.mp hna).2
    rw [joinNl_cons_cons]
    have hm : matchLen ((c0 :: s') ++ ('\n' :: joinSep ['\n'] (t :: T₃))) = none :=
      matchLen_none_append _ hgs.1 hsw
    rw [List.cons_append] at hm
    rw [List.cons_append, blankSub_true_no_match hm]
    have hc0 : (c0 == '\n') = false := beq_eq_false_iff_ne.mpr
      (fun he => hgs.1 (List.mem_cons.mpr (Or.inl he.symm)))
    rw [hc0, blankSub_false_append _ (fun hx => hgs.1 (List.mem_cons_of_mem c0 hx)),
      blankSub_false_cons, show (('\n' : Char) == '\n') = true from rfl, hrec]

theorem splitlines_seg_bnd_free_bound :
    ∀ (n : Nat) (l : List Char), l.length ≤ n →
      ∀ s ∈ splitlines l, ∀ c ∈ s, isLineBoundary c = false := by
  intro n
  induction n with
  | zero =>
    intro l hl s hs
    have hnil : l = [] := List.length_eq_zero.mp (Nat.le_zero.mp hl)
    subst hnil
    exact absurd hs (List.not_mem_nil s)
  | succ n ih =>
    intro l hl s hs c hc
    rw [splitlines_eq] at hs
    cases l with
    | nil => exact absurd hs (List.not_mem_nil s)
    | cons a r =>
      have hs' : s ∈ (a :: r).takeWhile (fun x => !isLineBoundary x) ::
          (if ((a :: r).dropWhile (fun x => !isLineBoundary x)).isEmpty then []
           else splitlines (lineRest ((a :: r).dropWhile (fun x => !isLineBoundary x)))) := hs
      rcases List.mem_cons.mp hs' with rfl | hs2
      · have := List.mem_takeWhile_imp hc
        simpa using this
      · cases hd : (a :: r).dropWhile (fun x => !isLineBoundary x) with
        | nil =>
          rw [hd] at hs2
          exact absurd hs2 (List.not_mem_nil s)
        | cons x xs =>
          rw [hd] at hs2
          have hs3 : s ∈ splitlines (lineRest (x :: xs)) := hs2
          have hdl := dropWhile_cons_length hd
          have hlr := lineRest_length_le (x :: xs)
          simp only [List.length_cons] at hl hdl hlr
          exact ih (lineRest (x :: xs)) (by omega) s hs3 c hc

theorem splitlines_no_bnd : ∀ {s : List Char}, s ≠ [] →
    (∀ c ∈ s, isLineBoundary c = false) → splitlines s = [s]
  | [], h, _ => absurd rfl h
  | [c], _, h => splitlines_singleton_not_bnd (h c (List.mem_cons_self _ _))
  | c :: y :: ys, _, h => by
    rw [splitlines_cons_not_bnd (h c (List.mem_cons_self _ _)) (List.cons_ne_nil y ys),
      splitlines_no_bnd (List.cons_ne_nil y ys) (fun z hz => h z (List.mem_cons_of_mem c hz))]
    rfl

theorem splitlines_append_nl : ∀ {a : List Char} (X : List Char),
    (∀ c ∈ a, isLineBoundary c = false) → splitlines (a ++ '\n' :: X) = a :: splitlines X
  | [], X, _ => by rw [List.nil_append, splitlines_cons_nl]
  | c :: a', X, h => by
    rw [List.cons_append,
      splitlines_cons_not_bnd (h c (List.mem_cons_self _ _)) (by simp),
      splitlines_append_nl X (fun z hz => h z (List.mem_cons_of_mem c hz))]
    rfl

/-- `str.splitlines` recovers the pieces of `"\n".join(pieces)` when the
pieces contain no line-boundary characters and the last piece is nonempty
(a trailing empty piece would be absorbed into the final newline). -/
theorem splitlines_joinNl : ∀ {T : List (List Char)},
    (∀ s ∈ T, ∀ c ∈ s, isLineBoundary c = false) → T.getLast? ≠ some [] →
    splitlines (joinSep ['\n'] T) = T
  | [], _, _ => rfl
  | [s], h, hl => by
    show splitlines s = [s]
    cases s with
    | nil => exact absurd (by simp) hl
    | cons c s' =>
      exact splitlines_no_bnd (List.cons_ne_nil c s') (h (c :: s') (List.mem_cons_self _ _))
  | s :: t :: T', h, hl => by
    rw [joinNl_cons_cons,
      splitlines_append_nl _ (h s (List.mem_cons_self _ _)),
      splitlines_joinNl (fun z hz => h z (List.mem_cons_of_mem s hz))
        (by rwa [getLast?_cons_ne_nil (List.cons_ne_nil t T')] at hl)]

theorem splitOnNl_last_nil : ∀ {w : List Char}, (splitOnNl w).getLast? = some [] →
    w = [] ∨ w.getLast? = some '\n'
  | [], _ => Or.inl rfl
  | c :: r, h => by
    by_cases hc : c = '\n'
    · subst hc
      rw [splitOnNl_cons_nl] at h
      cases hr : r with
      | nil => exact Or.inr (by simp)
      | cons y ys =>
        rw [getLast?_cons_ne_nil (splitOnNl_ne_nil r)] at h
        rcases splitOnNl_last_nil h with h1 | h2
        · rw [h1] at hr
          cases hr
        · refine Or.inr ?_
          rw [hr] at h2
          rw [getLast?_cons_ne_nil (List.cons_ne_nil y ys)]
          exact h2
    · rw [splitOnNl_cons_ne hc] at h
      cases hsp : splitOnNl r with
      | nil => exact absurd hsp (splitOnNl_ne_nil r)
      | cons a as =>
        rw [hsp] at h
        cases as with
        | nil =>
          have hco : c :: a = [] := Option.some.inj (show some (c :: a) = some [] from h)
          cases hco
        | cons b as' =>
          have h2 : (a :: b :: as').getLast? = some [] := by
            rw [getLast?_cons_ne_nil (List.cons_ne_nil b as')]
            have hh : ((c :: a) :: b :: as').getLast? = some [] := h
            rwa [getLast?_cons_ne_nil (List.cons_ne_nil b as')] at hh
          rw [← hsp] at h2
          rcases splitOnNl_last_nil h2 with h3 | h4
          · subst h3
            rw [show splitOnNl ([] : List Char) = [[]] from rfl] at hsp
            cases ((List.cons.injEq ..).mp hsp).2
          · refine Or.inr ?_
            rw [getLast?_cons_ne_nil ?_]
            · exact h4
            · intro he
              subst he
              rw [show splitOnNl ([] : List Char) = [[]] from rfl] at hsp
              cases ((List.cons.injEq ..).mp hsp).2

theorem noAdjEmpty_concat : ∀ {T : List (List Char)}, noAdjEmpty (T ++ [[]]) →
    T.getLast? ≠ some []
  | [], _, h => by simp at h
  | [a], hna, h => by
    have ha : a = [] := Option.some.inj (show some a = some [] from h)
    have hna' : noAdjEmpty (a :: [] :: []) := hna
    exact (noAdjEmpty_cons_cons.mp hna').1 ⟨ha, rfl⟩
  | a :: b :: T', hna, h => by
    have hna' : noAdjEmpty (b :: (T' ++ [[]])) := by
      have hfull : noAdjEmpty (a :: b :: (T' ++ [[]])) := hna
      exact (noAdjEmpty_cons_cons.mp hfull).2
    have h' : (b :: T').getLast? = some [] := by
      rwa [getLast?_cons_ne_nil (List.cons_ne_nil b T')] at h
    exact noAdjEmpty_concat (T := b :: T') (by rw [List.cons_append]; exact hna') h'

/-! ## Well-formed subtitle documents -/

/-- One subtitle cue block: sequence-number line, time-range line, dialogue
lines.  A rendered block is followed by a blank separator line. -/
structure Block where
  seq : List Char
  time : List Char
  dials : List (List Char)

/-- A dialogue line of a well-formed block: nonempty, free of line-boundary
characters, containing a non-whitespace character, free of `<` and `>`, and
not itself shaped like a time-range line. -/
def goodDial (d : List Char) : Prop :=
  d ≠ [] ∧ (∀ c ∈ d, isLineBoundary c = false) ∧ (∃ c ∈ d, isPySpace c = false) ∧
    '<' ∉ d ∧ '>' ∉ d ∧ timeShaped d = false

/-- A well-formed block: nonempty digits-only sequence line, exact
time-range line, at least one dialogue line, all dialogue lines good. -/
def goodBlock (b : Block) : Prop :=
  b.seq ≠ [] ∧ (∀ c ∈ b.seq, isPyDigit c = true) ∧ timeShaped b.time = true ∧
    b.dials ≠ [] ∧ ∀ d ∈ b.dials, goodDial d

/-- Render a list of lines, each terminated by a newline. -/
def lineText (L : List (List Char)) : List Char := (L.map (fun l => l ++ ['\n'])).flatten

/-- Render one block, blank separator line included. -/
def blockRender (b : Block) : List Char := lineText ([b.seq, b.time] ++ b.dials ++ [[]])

/-- Render a whole subtitle document. -/
def renderDoc (blocks : List Block) : List Char := (blocks.map blockRender).flatten

/-- What remains of a rendered block once its header pair is deleted. -/
def blockBody (b : Block) : List Char := lineText (b.dials ++ [[]])

/-- What remains of a rendered document once all header pairs are deleted. -/
def docBody (blocks : List Block) : List Char := (blocks.map blockBody).flatten

/-- The lines remaining after the blank-line pass: the dialogue lines of the
blocks, with one empty line between consecutive blocks. -/
def bodyLines : List Block → List (List Char)
  | [] => []
  | [b] => b.dials
  | b :: rest => b.dials ++ [] :: bodyLines rest

theorem goodDial_no_nl {d : List Char} (h : goodDial d) : '\n' ∉ d :=
  fun hx => absurd (h.2.1 '\n' hx) (by decide)

theorem lineText_cons (l : List Char) (L : List (List Char)) :
    lineText (l :: L) = l ++ '\n' :: lineText L := by
  unfold lineText
  rw [List.map_cons, List.flatten_cons, List.append_assoc]
  rfl

theorem lineText_append (L M : List (List Char)) :
    lineText (L ++ M) = lineText L ++ lineText M := by
  unfold lineText
  rw [List.map_append, List.flatten_append]

/-! ## No header pattern matches inside the emitted text -/

theorem timeClasses_len : timeClasses.length = 30 := rfl

theorem timeCheck_class {w : List Char} (h : timeCheck w = true) (j : Nat)
    (hj1 : j < timeClasses.length) (hj2 : j < w.length) :
    timeClasses.get ⟨j, hj1⟩ (w.get ⟨j, hj2⟩) = true := by
  unfold timeCheck at h
  simp only [Bool.and_eq_true] at h
  have hall := List.all_eq_true.mp h.2
  have hjz : j < (List.zipWith (fun f c => f c) timeClasses w).length := by
    rw [List.length_zipWith]
    omega
  have hmem := List.get_mem (List.zipWith (fun f c => f c) timeClasses w) j hjz
  have hid := hall _ hmem
  rw [List.get_eq_getElem, List.getElem_zipWith] at hid
  rw [List.get_eq_getElem, List.get_eq_getElem]
  exact hid

theorem timeClasses_reject_nl : ∀ (j : Nat) (hj : j < timeClasses.length), j ≤ 28 →
    timeClasses.get ⟨j, hj⟩ '\n' = false := by
  intro j hj h28
  interval_cases j <;> rfl

/-- A line that contains no newline and is not itself a time-range line
never lets the 30-character time window starting at the next line boundary
match: the window either ends inside the line (and the final-newline class
fails), ends exactly at the line's newline (so the line would be
time-shaped), or hits the newline early (rejected by every earlier class). -/
theorem window_not_time {l : List Char} (X : List Char) (hnl : '\n' ∉ l)
    (ht : timeShaped l = false) : timeCheck ((l ++ '\n' :: X).take 30) = false := by
  by_cases hc : timeCheck ((l ++ '\n' :: X).take 30) = true
  case neg => simpa using hc
  exfalso
  have hlen30 := timeCheck_length hc
  have hlentot : 30 ≤ (l ++ '\n' :: X).length := by
    have := List.length_take 30 (l ++ '\n' :: X)
    omega
  rcases Nat.lt_trichotomy l.length 29 with hl | hl | hl
  · have hj1 : l.length < timeClasses.length := by rw [timeClasses_len]; omega
    have hj2 : l.length < ((l ++ '\n' :: X).take 30).length := by omega
    have hcl := timeCheck_class hc l.length hj1 hj2
    have hchar : ((l ++ '\n' :: X).take 30).get ⟨l.length, hj2⟩ = '\n' := by
      rw [List.get_eq_getElem, List.getElem_take,
        List.getElem_append_right (le_refl l.length)]
      simp
    rw [hchar, timeClasses_reject_nl l.length hj1 (by omega)] at hcl
    cases hcl
  · have hw : (l ++ '\n' :: X).take 30 = l ++ ['\n'] := by
      have hsplit : l ++ '\n' :: X = (l ++ ['\n']) ++ X := by
        rw [List.append_assoc]
        rfl
      have hlen' : (l ++ ['\n']).length = 30 := by
        rw [List.length_append, List.length_singleton '\n']
        omega
      rw [hsplit, List.take_left' hlen']
    rw [hw] at hc
    have hts : timeShaped l = true := hc
    rw [ht] at hts
    cases hts
  · have hj1 : (29 : Nat) < timeClasses.length := by rw [timeClasses_len]; omega
    have hj2 : (29 : Nat) < ((l ++ '\n' :: X).take 30).length := by omega
    have hcl := timeCheck_class hc 29 hj1 hj2
    have hchar : ((l ++ '\n' :: X).take 30).get ⟨29, hj2⟩ ∈ l := by
      rw [List.get_eq_getElem, List.getElem_take, List.getElem_append_left (by omega)]
      exact List.getElem_mem _
    have hcl' : (((l ++ '\n' :: X).take 30).get ⟨29, hj2⟩ == '\n') = true := hcl
    rw [beq_iff_eq.mp hcl'] at hchar
    exact hnl hchar

/-- A digits-only line is never time-shaped (its third character would have
to be `:`). -/
theorem digit_line_not_time {s : List Char} (hdig : ∀ c ∈ s, isPyDigit c = true) :
    timeShaped s = false := by
  by_cases hc : timeShaped s = true
  case neg => simpa using hc
  exfalso
  have hc' : timeCheck (s ++ ['\n']) = true := hc
  have hlen := timeCheck_length hc'
  rw [List.length_append, List.length_singleton '\n'] at hlen
  have hj1 : (2 : Nat) < timeClasses.length := by rw [timeClasses_len]; omega
  have hj2 : (2 : Nat) < (s ++ ['\n']).length := by rw [List.length_append]; omega
  have hcl := timeCheck_class hc' 2 hj1 hj2
  have hmem : (s ++ ['\n']).get ⟨2, hj2⟩ ∈ s := by
    have h2 : (2 : Nat) < s.length := by omega
    have hgE : (s ++ ['\n']).get ⟨2, hj2⟩ = s.get ⟨2, h2⟩ := by
      rw [List.get_eq_getElem, List.get_eq_getElem]
      exact List.getElem_append_left h2
    rw [hgE]
    exact List.get_mem s 2 h2
  have hcl' : ((s ++ ['\n']).get ⟨2, hj2⟩ == ':') = true := hcl
  rw [beq_iff_eq.mp hcl'] at hmem
  exact absurd (hdig ':' hmem) (by decide)

theorem dropWhile_append_of_cons {p : Char → Bool} :
    ∀ {d : List Char} {c₁ : Char} {d₂ : List Char} (X : List Char),
      d.dropWhile p = c₁ :: d₂ → (d ++ X).dropWhile p = c₁ :: (d₂ ++ X)
  | [], _, _, X, h => by cases h
  | e :: d', c₁, d₂, X, h => by
    rw [List.dropWhile_cons] at h
    rw [List.cons_append, List.dropWhile_cons]
    by_cases hp : p e = true
    · rw [if_pos hp] at h
      rw [if_pos hp]
      exact dropWhile_append_of_cons X h
    · rw [if_neg hp] at h
      rw [if_neg hp]
      obtain ⟨h1, h2⟩ := (List.cons.injEq ..).mp h
      rw [h1, h2]

/-- No header match can start inside a newline-free line when the
30-character window at the following line start fails. -/
theorem headerMatch_none_mid {d T : List Char} (hnl : '\n' ∉ d)
    (hw : timeCheck (T.take 30) = false) : headerMatch (d ++ '\n' :: T) = none := by
  unfold headerMatch
  cases hdw : d.dropWhile isPyDigit with
  | nil =>
    have hall : ∀ c ∈ d, isPyDigit c = true := by
      rw [← List.dropWhile_eq_nil_iff]
      exact hdw
    rw [takeWhile_append_stop hall (by decide), dropWhile_append_stop hall (by decide)]
    cases d with
    | nil =>
      rw [if_pos (show (List.isEmpty ([] : List Char)) = true from rfl)]
    | cons e d' =>
      rw [if_neg (by simp)]
      show (if ('\n' : Char) = '\n' then timeHead T else none) = none
      rw [if_pos (show ('\n' : Char) = '\n' from rfl)]
      unfold timeHead
      rw [if_neg (by simpa using hw)]
  | cons c₁ d₂ =>
    have hc₁d : c₁ ∈ d := by
      have : c₁ ∈ d.dropWhile isPyDigit := by
        rw [hdw]
        exact List.mem_cons_self _ _
      exact (List.dropWhile_sublist _).subset this
    rw [dropWhile_append_of_cons ('\n' :: T) hdw]
    split
    · rfl
    · show (if c₁ = '\n' then timeHead (d₂ ++ '\n' :: T) else none) = none
      rw [if_neg (fun he : c₁ = '\n' => hnl (he ▸ hc₁d))]

/-- Emitting one newline-free line: the header scan passes over the line and
its final newline untouched when the time window at the next line start
fails. -/
theorem stripHeaders_emit_line : ∀ (d : List Char) (T : List Char), '\n' ∉ d →
    timeCheck (T.take 30) = false →
    stripHeaders (d ++ '\n' :: T) = d ++ '\n' :: stripHeaders T
  | [], T, _, hw => by
    rw [List.nil_append, stripHeaders_eq]
    have hm : headerMatch ('\n' :: T) = none := by
      have := headerMatch_none_mid (d := []) (List.not_mem_nil '\n') hw
      rwa [List.nil_append] at this
    rw [hm]
    rfl
  | c :: d', T, hnl, hw => by
    rw [List.cons_append, stripHeaders_eq]
    have hm : headerMatch (c :: (d' ++ '\n' :: T)) = none := by
      have := headerMatch_none_mid hnl hw
      rwa [List.cons_append] at this
    rw [hm]
    show c :: stripHeaders (d' ++ '\n' :: T) = c :: (d' ++ '\n' :: stripHeaders T)
    rw [stripHeaders_emit_line d' T (fun hx => hnl (List.mem_cons_of_mem c hx)) hw]

/-- Emitting a run of lines none of which is time-shaped or contains a
newline, given that the time window fails at the start of what follows. -/
theorem stripHeaders_lineText : ∀ (P : List (List Char)) (R : List Char),
    (∀ l ∈ P, '\n' ∉ l ∧ timeShaped l = false) → timeCheck (R.take 30) = false →
    stripHeaders (lineText P ++ R) = lineText P ++ stripHeaders R
  | [], R, _, _ => by rw [show lineText [] = [] from rfl, List.nil_append, List.nil_append]
  | l :: P', R, hg, hw => by
    have hl := hg l (List.mem_cons_self _ _)
    have hwnext : timeCheck ((lineText P' ++ R).take 30) = false := by
      cases P' with
      | nil =>
        rw [show lineText [] = [] from rfl, List.nil_append]
        exact hw
      | cons m M =>
        have hm := hg m (List.mem_cons_of_mem _ (List.mem_cons_self _ _))
        rw [lineText_cons, List.append_assoc, List.cons_append]
        exact window_not_time (lineText M ++ R) hm.1 hm.2
    rw [lineText_cons, List.append_assoc, List.cons_append,
      stripHeaders_emit_line l (lineText P' ++ R) hl.1 hwnext,
      stripHeaders_lineText P' R (fun z hz => hg z (List.mem_cons_of_mem _ hz)) hw,
      List.append_assoc, List.cons_append]

theorem blockRender_shape (b : Block) (Q : List Char) :
    blockRender b ++ Q =
      b.seq ++ '\n' :: (b.time ++ '\n' :: (lineText (b.dials ++ [[]]) ++ Q)) := by
  unfold blockRender
  rw [show [b.seq, b.time] ++ b.dials ++ [[]] = b.seq :: b.time :: (b.dials ++ [[]]) from rfl,
    lineText_cons, lineText_cons, List.append_assoc, List.cons_append, List.append_assoc,
    List.cons_append]

theorem headerMatch_blockRender (b : Block) (hb : goodBlock b) (Q : List Char) :
    headerMatch (blockRender b ++ Q) = some (lineText (b.dials ++ [[]]) ++ Q) := by
  rw [blockRender_shape]
  exact headerMatch_header hb.1 hb.2.1 hb.2.2.1

/-- The header pass on a well-formed document deletes exactly the
sequence-number and time-range lines of every block. -/
theorem stripHeaders_renderDoc : ∀ (blocks : List Block),
    (∀ b ∈ blocks, goodBlock b) → stripHeaders (renderDoc blocks) = docBody blocks
  | [], _ => rfl
  | b :: rest, hg => by
    have hgb := hg b (List.mem_cons_self _ _)
    have hlines : ∀ l ∈ b.dials ++ [[]], '\n' ∉ l ∧ timeShaped l = false := by
      intro l hl
      rcases List.mem_append.mp hl with h1 | h2
      · have hgd := hgb.2.2.2.2 l h1
        exact ⟨goodDial_no_nl hgd, hgd.2.2.2.2.2⟩
      · rcases List.mem_cons.mp h2 with rfl | h3
        · exact ⟨List.not_mem_nil _, by decide⟩
        · exact absurd h3 (List.not_mem_nil l)
    have hwindow : timeCheck ((renderDoc rest).take 30) = false := by
      cases rest with
      | nil => decide
      | cons b₂ rest' =>
        have hgb₂ := hg b₂ (List.mem_cons_of_mem _ (List.mem_cons_self _ _))
        have hsh : renderDoc (b₂ :: rest') = b₂.seq ++ '\n' ::
            (b₂.time ++ '\n' :: (lineText (b₂.dials ++ [[]]) ++ renderDoc rest')) := by
          rw [show renderDoc (b₂ :: rest') = blockRender b₂ ++ renderDoc rest' from rfl,
            blockRender_shape]
        rw [hsh]
        exact window_not_time _
          (fun hx => absurd (hgb₂.2.1 '\n' hx) (by decide))
          (digit_line_not_time hgb₂.2.1)
    rw [show renderDoc (b :: rest) = blockRender b ++ renderDoc rest from rfl,
      stripHeaders_eq, headerMatch_blockRender b hgb (renderDoc rest)]
    show stripHeaders (lineText (b.dials ++ [[]]) ++ renderDoc rest) =
      blockBody b ++ docBody rest
    rw [stripHeaders_lineText (b.dials ++ [[]]) (renderDoc rest) hlines hwindow,
      stripHeaders_renderDoc rest (fun z hz => hg z (List.mem_cons_of_mem _ hz))]
    rfl

/-! ## The remaining passes on a well-formed document body -/

theorem lineText_chars : ∀ {L : List (List Char)} {c : Char}, c ∈ lineText L →
    c = '\n' ∨ ∃ l ∈ L, c ∈ l
  | [], c, h => absurd h (List.not_mem_nil c)
  | l :: L', c, h => by
    rw [lineText_cons] at h
    rcases List.mem_append.mp h with h1 | h2
    · exact Or.inr ⟨l, List.mem_cons_self _ _, h1⟩
    · rcases List.mem_cons.mp h2 with rfl | h3
      · exact Or.inl rfl
      · rcases lineText_chars h3 with h4 | ⟨m, hm, hc⟩
        · exact Or.inl h4
        · exact Or.inr ⟨m, List.mem_cons_of_mem _ hm, hc⟩

theorem docBody_no_gt : ∀ (blocks : List Block), (∀ b ∈ blocks, goodBlock b) →
    '>' ∉ docBody blocks
  | [], _ => List.not_mem_nil _
  | b :: rest, hg => by
    intro hmem
    rcases List.mem_append.mp (show '>' ∈ blockBody b ++ docBody rest from hmem) with h1 | h2
    · rcases lineText_chars h1 with h3 | ⟨l, hl, hc⟩
      · exact absurd h3 (by decide)
      · rcases List.mem_append.mp hl with h4 | h5
        · exact ((hg b (List.mem_cons_self _ _)).2.2.2.2 l h4).2.2.2.2.1 hc
        · rcases List.mem_cons.mp h5 with rfl | h6
          · exact List.not_mem_nil _ hc
          · exact absurd h6 (List.not_mem_nil l)
    · exact docBody_no_gt rest (fun z hz => hg z (List.mem_cons_of_mem _ hz)) h2

/-- The blank-line pass emits a run of good dialogue lines untouched,
handing the scan over to the rest at a beginning-of-line position. -/
theorem blankSub_dials : ∀ (D : List (List Char)) (T : List Char), D ≠ [] →
    (∀ d ∈ D, goodDial d) →
    blankSub true (lineText D ++ T) = joinSep ['\n'] D ++ '\n' :: blankSub true T
  | [], _, hne, _ => absurd rfl hne
  | [d], T, _, hgd => by
    have hd := hgd d (List.mem_cons_self _ _)
    have hnl : '\n' ∉ d := goodDial_no_nl hd
    have hsh : lineText [d] ++ T = d ++ '\n' :: T := by
      rw [lineText_cons, List.append_assoc]
      rfl
    rw [hsh]
    cases hdc : d with
    | nil => exact absurd hdc hd.1
    | cons c0 d' =>
      rw [hdc] at hnl
      have hm : matchLen (c0 :: (d' ++ '\n' :: T)) = none := by
        have := matchLen_none_append ('\n' :: T) hnl (hdc ▸ hd.2.2.1)
        rwa [List.cons_append] at this
      rw [List.cons_append, blankSub_true_no_match hm]
      have hc0 : (c0 == '\n') = false := beq_eq_false_iff_ne.mpr
        (fun he => hnl (List.mem_cons.mpr (Or.inl he.symm)))
      rw [hc0, blankSub_false_append _ (fun hx => hnl (List.mem_cons_of_mem c0 hx)),
        blankSub_false_cons, show (('\n' : Char) == '\n') = true from rfl]
      show c0 :: (d' ++ '\n' :: blankSub true T) = (c0 :: d') ++ '\n' :: blankSub true T
      rw [List.cons_append]
  | d :: d₂ :: D'', T, _, hgd => by
    have hd := hgd d (List.mem_cons_self _ _)
    have hnl : '\n' ∉ d := goodDial_no_nl hd
    have hsh : lineText (d :: d₂ :: D'') ++ T = d ++ '\n' :: (lineText (d₂ :: D'') ++ T) := by
      rw [lineText_cons, List.append_assoc]
      rfl
    rw [hsh]
    cases hdc : d with
    | nil => exact absurd hdc hd.1
    | cons c0 d' =>
      rw [hdc] at hnl
      have hm : matchLen (c0 :: (d' ++ '\n' :: (lineText (d₂ :: D'') ++ T))) = none := by
        have := matchLen_none_append ('\n' :: (lineText (d₂ :: D'') ++ T)) hnl
          (hdc ▸ hd.2.2.1)
        rwa [List.cons_append] at this
      rw [List.cons_append, blankSub_true_no_match hm]
      have hc0 : (c0 == '\n') = false := beq_eq_false_iff_ne.mpr
        (fun he => hnl (List.mem_cons.mpr (Or.inl he.symm)))
      rw [hc0, blankSub_false_append _ (fun hx => hnl (List.mem_cons_of_mem c0 hx)),
        blankSub_false_cons, show (('\n' : Char) == '\n') = true from rfl,
        blankSub_dials (d₂ :: D'') T (List.cons_ne_nil _ _)
          (fun z hz => hgd z (List.mem_cons_of_mem _ hz)),
        joinNl_cons_cons]
      show c0 :: (d' ++ '\n' :: (joinSep ['\n'] (d₂ :: D'') ++ '\n' :: blankSub true T)) =
        ((c0 :: d') ++ '\n' :: joinSep ['\n'] (d₂ :: D'')) ++ '\n' :: blankSub true T
      rw [List.cons_append, List.cons_append, List.append_assoc, List.cons_append]

theorem bodyLines_ne_nil : ∀ (blocks : List Block), blocks ≠ [] →
    (∀ b ∈ blocks, goodBlock b) → bodyLines blocks ≠ []
  | [], hne, _ => absurd rfl hne
  | [b], _, hg => by
    show b.dials ≠ []
    exact (hg b (List.mem_cons_self _ _)).2.2.2.1
  | _ :: _ :: _, _, _ => by
    show _ ++ [] :: _ ≠ []
    simp

theorem bodyLines_mem : ∀ (blocks : List Block), (∀ b ∈ blocks, goodBlock b) →
    ∀ l ∈ bodyLines blocks, l = [] ∨ goodDial l
  | [], _, l, hl => absurd hl (List.not_mem_nil l)
  | [b], hg, l, hl => Or.inr ((hg b (List.mem_cons_self _ _)).2.2.2.2 l hl)
  | b :: b₂ :: rest, hg, l, hl => by
    rcases List.mem_append.mp
        (show l ∈ b.dials ++ [] :: bodyLines (b₂ :: rest) from hl) with h1 | h2
    · exact Or.inr ((hg b (List.mem_cons_self _ _)).2.2.2.2 l h1)
    · rcases List.mem_cons.mp h2 with rfl | h3
      · exact Or.inl rfl
      · exact bodyLines_mem (b₂ :: rest) (fun z hz => hg z (List.mem_cons_of_mem _ hz)) l h3

theorem joinSep_append (sep : List Char) : ∀ (A B : List (List Char)), A ≠ [] → B ≠ [] →
    joinSep sep (A ++ B) = joinSep sep A ++ sep ++ joinSep sep B
  | [], _, hne, _ => absurd rfl hne
  | [a], B, _, hBne => by
    obtain ⟨b0, B', rfl⟩ := List.exists_cons_of_ne_nil hBne
    show joinSep sep (a :: b0 :: B') = a ++ sep ++ joinSep sep (b0 :: B')
    rfl
  | a :: a₂ :: A', B, _, hBne => by
    rw [show (a :: a₂ :: A') ++ B = a :: ((a₂ :: A') ++ B) from rfl,
      show joinSep sep (a :: ((a₂ :: A') ++ B)) =
        a ++ sep ++ joinSep sep ((a₂ :: A') ++ B) from rfl,
      joinSep_append sep (a₂ :: A') B (List.cons_ne_nil _ _) hBne,
      show joinSep sep (a :: a₂ :: A') = a ++ sep ++ joinSep sep (a₂ :: A') from rfl]
    simp only [List.append_assoc]

/-- The blank-line pass on a well-formed document body: interior blank
separator lines survive as empty matches, the final blank line is deleted
as a nonempty `\s*$` match. -/
theorem blankSub_docBody : ∀ (blocks : List Block), blocks ≠ [] →
    (∀ b ∈ blocks, goodBlock b) →
    blankSub true (docBody blocks) = joinSep ['\n'] (bodyLines blocks) ++ ['\n']
  | [], hne, _ => absurd rfl hne
  | [b], _, hg => by
    have hgb := hg b (List.mem_cons_self _ _)
    have hsh : docBody [b] = lineText b.dials ++ ['\n'] := by
      show blockBody b ++ [] = _
      unfold blockBody
      rw [List.append_nil, lineText_append]
      rfl
    rw [hsh, blankSub_dials b.dials ['\n'] hgb.2.2.2.1 hgb.2.2.2.2,
      show blankSub true ['\n'] = [] from by decide]
    show joinSep ['\n'] b.dials ++ ['\n'] = joinSep ['\n'] (bodyLines [b]) ++ ['\n']
    rfl
  | b :: b₂ :: rest, _, hg => by
    have hgb := hg b (List.mem_cons_self _ _)
    have hgb₂ := hg b₂ (List.mem_cons_of_mem _ (List.mem_cons_self _ _))
    have hsh : docBody (b :: b₂ :: rest) =
        lineText b.dials ++ ('\n' :: docBody (b₂ :: rest)) := by
      show blockBody b ++ docBody (b₂ :: rest) = _
      unfold blockBody
      rw [lineText_append, List.append_assoc]
      rfl
    rw [hsh, blankSub_dials b.dials _ hgb.2.2.2.1 hgb.2.2.2.2]
    obtain ⟨d0, ds, hd0⟩ := List.exists_cons_of_ne_nil hgb₂.2.2.2.1
    have hgd0 : goodDial d0 := hgb₂.2.2.2.2 d0 (by rw [hd0]; exact List.mem_cons_self _ _)
    have hshape2 : docBody (b₂ :: rest) =
        d0 ++ '\n' :: (lineText (ds ++ [[]]) ++ docBody rest) := by
      show blockBody b₂ ++ docBody rest = _
      unfold blockBody
      rw [hd0, show (d0 :: ds) ++ [[]] = d0 :: (ds ++ [[]]) from rfl, lineText_cons,
        List.append_assoc]
      rfl
    have hm0 : matchLen ('\n' :: docBody (b₂ :: rest)) = some 0 := by
      rw [hshape2]
      exact matchLen_nl_seg _ (goodDial_no_nl hgd0) hgd0.2.2.1
    rw [blankSub_true_empty_match hm0, show (('\n' : Char) == '\n') = true from rfl,
      blankSub_docBody (b₂ :: rest) (List.cons_ne_nil _ _)
        (fun z hz => hg z (List.mem_cons_of_mem _ hz))]
    show joinSep ['\n'] b.dials ++
        '\n' :: '\n' :: (joinSep ['\n'] (bodyLines (b₂ :: rest)) ++ ['\n']) =
      joinSep ['\n'] (b.dials ++ [] :: bodyLines (b₂ :: rest)) ++ ['\n']
    rw [joinSep_append ['\n'] b.dials ([] :: bodyLines (b₂ :: rest)) hgb.2.2.2.1
      (List.cons_ne_nil _ _)]
    have hMne := bodyLines_ne_nil (b₂ :: rest) (List.cons_ne_nil _ _)
      (fun z hz => hg z (List.mem_cons_of_mem _ hz))
    obtain ⟨m0, M', hM⟩ := List.exists_cons_of_ne_nil hMne
    rw [hM]
    rw [show joinSep ['\n'] (([] : List Char) :: m0 :: M') =
      '\n' :: joinSep ['\n'] (m0 :: M') from rfl]
    simp only [List.append_assoc, List.cons_append, List.singleton_append, List.nil_append]

theorem lineText_eq_joinNl : ∀ (L : List (List Char)), L ≠ [] →
    lineText L = joinSep ['\n'] L ++ ['\n']
  | [], hne => absurd rfl hne
  | [l], _ => by
    rw [lineText_cons]
    show l ++ '\n' :: lineText [] = l ++ ['\n']
    rfl
  | l :: l₂ :: L', _ => by
    rw [lineText_cons, lineText_eq_joinNl (l₂ :: L') (List.cons_ne_nil _ _), joinNl_cons_cons,
      List.append_assoc, List.cons_append]

theorem splitlines_lineText : ∀ (L : List (List Char)),
    (∀ l ∈ L, ∀ c ∈ l, isLineBoundary c = false) → splitlines (lineText L) = L
  | [], _ => rfl
  | l :: L', h => by
    rw [lineText_cons, splitlines_append_nl _ (h l (List.mem_cons_self _ _)),
      splitlines_lineText L' (fun z hz => h z (List.mem_cons_of_mem _ hz))]

theorem bodyLines_bnd_free (blocks : List Block) (hg : ∀ b ∈ blocks, goodBlock b) :
    ∀ l ∈ bodyLines blocks, ∀ c ∈ l, isLineBoundary c = false := by
  intro l hl c hc
  rcases bodyLines_mem blocks hg l hl with rfl | hgd
  · exact absurd hc (List.not_mem_nil c)
  · exact hgd.2.1 c hc

theorem joinNl_bodyLines : ∀ (blocks : List Block), (∀ b ∈ blocks, goodBlock b) →
    joinSep ['\n'] (bodyLines blocks) =
      joinSep ['\n', '\n'] (blocks.map (fun b => joinSep ['\n'] b.dials))
  | [], _ => rfl
  | [b], _ => by
    show joinSep ['\n'] b.dials = joinSep ['\n', '\n'] [joinSep ['\n'] b.dials]
    rfl
  | b :: b₂ :: rest, hg => by
    have hMne := bodyLines_ne_nil (b₂ :: rest) (List.cons_ne_nil _ _)
      (fun z hz => hg z (List.mem_cons_of_mem _ hz))
    show joinSep ['\n'] (b.dials ++ [] :: bodyLines (b₂ :: rest)) = _
    rw [joinSep_append ['\n'] b.dials ([] :: bodyLines (b₂ :: rest))
      (hg b (List.mem_cons_self _ _)).2.2.2.1 (List.cons_ne_nil _ _)]
    obtain ⟨m0, M', hM⟩ := List.exists_cons_of_ne_nil hMne
    rw [hM]
    rw [show joinSep ['\n'] (([] : List Char) :: m0 :: M') =
      '\n' :: joinSep ['\n'] (m0 :: M') from rfl]
    rw [← hM, joinNl_bodyLines (b₂ :: rest) (fun z hz => hg z (List.mem_cons_of_mem _ hz))]
    show joinSep ['\n'] b.dials ++ ['\n'] ++
        ('\n' :: joinSep ['\n', '\n'] ((b₂ :: rest).map (fun x => joinSep ['\n'] x.dials))) =
      joinSep ['\n'] b.dials ++ ['\n', '\n'] ++
        joinSep ['\n', '\n'] ((b₂ :: rest).map (fun x => joinSep ['\n'] x.dials))
    simp only [List.append_assoc, List.cons_append, List.singleton_append, List.nil_append]

/-! ## Claim theorems -/

/-- A well-formed two-block document whose dialogue lines are `A` and `B`. -/
def c1Block1 : Block :=
  ⟨"1".toList, "00:00:01,000 --> 00:00:02,000".toList, ["A".toList]⟩

def c1Block2 : Block :=
  ⟨"2".toList, "00:00:03,000 --> 00:00:04,000".toList, ["B".toList]⟩

/-- Claim C1, counterexample: on the well-formed two-block document with
dialogue lines `A` and `B`, `parse_srt` returns `"A\n\nB"`, not the
claimed plain single-newline join `"A\nB"`: one blank line remains between
the dialogue of consecutive blocks, because the blank-line pass only makes
an empty match on the separator line. -/
theorem claim_C1_counterexample :
    (∀ b ∈ [c1Block1, c1Block2], goodBlock b) ∧
    parseSrt (utf8Encode (renderDoc [c1Block1, c1Block2])) = some "A\n\nB".toList ∧
    "A\n\nB".toList ≠
      joinSep ['\n'] ([c1Block1, c1Block2].map (fun b => joinSep ['\n'] b.dials)) := by
  refine ⟨fun b hb => ?_, by decide, by decide⟩
  rcases List.mem_cons.mp hb with rfl | hb2
  · unfold goodBlock goodDial
    decide
  · rcases List.mem_cons.mp hb2 with rfl | hb3
    · unfold goodBlock goodDial
      decide
    · exact absurd hb3 (List.not_mem_nil b)

/-- Claim C1, amended: for every nonempty well-formed document — blocks of a
digits-only sequence line, an exact time-range line, dialogue lines (each
with a non-whitespace character, no markup and not time-shaped), and a blank
separator line — `parse_srt` returns the dialogue lines of each block joined
by single newlines, with the blocks joined by a double newline: all
sequence numbers and time-range lines are removed and the dialogue order is
preserved, but one blank line remains between consecutive blocks. -/
theorem claim_C1 (blocks : List Block) (bs : List Nat)
    (hbne : blocks ≠ []) (hg : ∀ b ∈ blocks, goodBlock b)
    (hdec : utf8Decode bs = some (renderDoc blocks)) :
    parseSrt bs =
      some (joinSep ['\n', '\n'] (blocks.map (fun b => joinSep ['\n'] b.dials))) := by
  unfold parseSrt
  rw [hdec]
  refine congrArg some ?_
  show pipelineText (renderDoc blocks) = _
  unfold pipelineText
  rw [stripHeaders_renderDoc blocks hg, stripTags_id_of_no_gt (docBody_no_gt blocks hg),
    blankSub_docBody blocks hbne hg,
    show joinSep ['\n'] (bodyLines blocks) ++ ['\n'] = lineText (bodyLines blocks) from
      (lineText_eq_joinNl (bodyLines blocks) (bodyLines_ne_nil blocks hbne hg)).symm,
    splitlines_lineText (bodyLines blocks) (bodyLines_bnd_free blocks hg),
    joinNl_bodyLines blocks hg]

def c1WBlock : Block :=
  ⟨"1".toList, "00:00:01,000 --> 00:00:02,000".toList,
    ["Hi there".toList, "Bye".toList]⟩

theorem claim_C1_witness :
    (([c1WBlock] : List Block) ≠ [] ∧ (∀ b ∈ [c1WBlock], goodBlock b) ∧
      utf8Decode (utf8Encode (renderDoc [c1WBlock])) = some (renderDoc [c1WBlock])) ∧
    parseSrt (utf8Encode (renderDoc [c1WBlock])) =
      some (joinSep ['\n', '\n'] ([c1WBlock].map (fun b => joinSep ['\n'] b.dials))) := by
  have hgw : ∀ b ∈ [c1WBlock], goodBlock b := by
    intro b hb
    rcases List.mem_cons.mp hb with rfl | hb2
    · unfold goodBlock goodDial
      decide
    · exact absurd hb2 (List.not_mem_nil b)
  exact ⟨⟨List.cons_ne_nil _ _, hgw, by decide⟩,
    claim_C1 [c1WBlock] (utf8Encode (renderDoc [c1WBlock])) (List.cons_ne_nil _ _) hgw
      (by decide)⟩

/-- The concrete well-formed subtitle document of the specification's
worked example. -/
def c2Input : List Char :=
  "1\n00:00:01,000 --> 00:00:02,000\nHello world\n\n2\n00:00:02,500 --> 00:00:03,000\n<i>Goodbye</i>\n".toList

/-- Claim C2, counterexample: on the example bytes, `parse_srt` returns
`"Hello world\n\nGoodbye"` — with a blank line between the two cue texts —
and not the string `"Hello world\nGoodbye"` the claim asserts.  The blank
separator line survives because `re.sub(r'^\s*$', '', ..., re.M)` only finds
an empty match on a lone blank line (a nonempty `\s*$` match would have to
end right before a newline or at the end of the text), and replacing an
empty match with an empty string deletes nothing. -/
theorem claim_C2_counterexample :
    parseSrt (utf8Encode c2Input) = some "Hello world\n\nGoodbye".toList ∧
    some "Hello world\n\nGoodbye".toList ≠ some "Hello world\nGoodbye".toList := by
  constructor
  · decide
  · decide

/-- Claim C2, amended: on the concrete input bytes of the example the
Subtitle Extractor returns exactly `"Hello world\n\nGoodbye"` — the two
dialogue lines in order, with the cue headers and tags removed and with one
blank line left where the blank separator line of the first cue was. -/
theorem claim_C2 :
    parseSrt (utf8Encode c2Input) = some "Hello world\n\nGoodbye".toList := by
  decide

/-- A line ending in digits that is not digits-only, followed by a
time-range line: the header pattern deletes the digit suffix `123` together
with the time-range line, merging `abc` with `Hello`. -/
def c3Input : List Char := "abc123\n00:00:01,000 --> 00:00:02,000\nHello\n".toList

/-- Claim C3, counterexample: in `c3Input` no line consists only of digits,
so by the claim the block-header removal step should delete nothing; the
step nevertheless removes characters (the digit suffix `123` of the first
line and the whole time-range line), producing `"abcHello\n"`. -/
theorem claim_C3_counterexample :
    stripHeaders c3Input = "abcHello\n".toList ∧
    stripHeaders c3Input ≠ c3Input ∧
    (∀ line ∈ splitOnNl c3Input, ¬(line ≠ [] ∧ ∀ c ∈ line, isPyDigit c = true)) := by
  refine ⟨by decide, by decide, by decide⟩

/-- Claim C3, amended: the block-header removal step changes the text if and
only if the pattern — a nonempty run of Unicode decimal digits (`\d` is any
category-Nd digit, e.g. also `٣`), a newline, a full time-range line
`HH:MM:SS,mmm --> HH:MM:SS,mmm`, and a trailing newline — occurs
somewhere in it; the digit run need not be a whole line (a digit suffix of a
dialogue line is deleted together with the following time-range line), and a
header pair whose time-range line is not followed by a newline is not
deleted.  Whenever the pattern occurs at the head, exactly the digit run,
the time-range line and their two newlines are deleted. -/
theorem claim_C3 :
    (∀ l : List Char, stripHeaders l = l ↔ ∀ i, headerMatch (l.drop i) = none) ∧
    (∀ ds t rest : List Char, ds ≠ [] → (∀ c ∈ ds, isPyDigit c = true) →
      timeShaped t = true →
      stripHeaders (ds ++ '\n' :: (t ++ '\n' :: rest)) = stripHeaders rest) := by
  constructor
  · intro l
    constructor
    · intro heq i
      cases hm : headerMatch (l.drop i) with
      | none => rfl
      | some rest =>
        exact absurd heq
          (stripHeaders_ne_of_occ_bound l.length l (le_refl _) ⟨i, by rw [hm]; rfl⟩)
    · exact stripHeaders_id_of_no_occ_bound l.length l (le_refl _)
  · intro ds t rest hne hdig ht
    rw [stripHeaders_eq, headerMatch_header hne hdig ht]

theorem claim_C3_witness :
    (("٣".toList : List Char) ≠ [] ∧
      (∀ c ∈ ("٣".toList : List Char), isPyDigit c = true) ∧
      timeShaped "00:00:01,000 --> 00:00:02,000".toList = true) ∧
    stripHeaders ("٣".toList ++ '\n' ::
        ("00:00:01,000 --> 00:00:02,000".toList ++ '\n' :: "Hi\n".toList)) =
      stripHeaders "Hi\n".toList ∧
    (stripHeaders "Hi\nBye".toList = "Hi\nBye".toList ↔
      ∀ i, headerMatch ("Hi\nBye".toList.drop i) = none) :=
  ⟨⟨by decide, by decide, by decide⟩,
   claim_C3.2 "٣".toList "00:00:01,000 --> 00:00:02,000".toList "Hi\n".toList
     (by decide) (by decide) (by decide),
   claim_C3.1 "Hi\nBye".toList⟩

/-- Claim C4, counterexample: the claim says the returned string contains no
empty or whitespace-only lines for every input, but on the bytes of
`"A\n\nB"` `parse_srt` returns `"A\n\nB"` unchanged — its second line is
empty.  The blank-line pass finds only an empty match on the lone blank
line and deletes nothing. -/
theorem claim_C4_counterexample :
    parseSrt (utf8Encode "A\n\nB".toList) = some "A\n\nB".toList ∧
    splitOnNl "A\n\nB".toList = [['A'], [], ['B']] :=
  ⟨by decide, by decide⟩

/-- Claim C4, amended: on inputs whose only line-boundary characters are
plain newlines, the blank-line pass removes the whitespace of every
whitespace-only line but not the line itself, and collapses runs of blank
lines: in the string `parse_srt` returns, every line is either completely
empty or contains a non-whitespace character (so no nonempty
whitespace-only line survives), and no two adjacent lines are both empty.
Empty lines do remain wherever the input had a blank separator line. -/
theorem claim_C4 (bs : List Nat) (t out : List Char)
    (hdec : utf8Decode bs = some t) (h : onlyNl t) (hout : parseSrt bs = some out) :
    (∀ s ∈ splitOnNl out, goodSeg s) ∧ noAdjEmpty (splitOnNl out) := by
  have hout' : out = pipelineText t := by
    unfold parseSrt at hout
    rw [hdec] at hout
    exact (Option.some.inj hout).symm
  subst hout'
  have hgw : onlyNl (blankSub true (stripTags (stripHeaders t))) := by
    intro c hc hb
    exact h c (stripHeaders_subset c (stripTags_subset c (blankSub_subset c hc))) hb
  have hinv := blankSub_segs_bound (stripTags (stripHeaders t)).length
    (stripTags (stripHeaders t)) true [] (le_refl _) (List.not_mem_nil _)
    (fun hne _ => absurd rfl hne) (fun _ hb => absurd hb (by decide))
  rw [List.nil_append] at hinv
  have hS4 := splitOnNl_splitlines hgw
  cases hT : splitlines (blankSub true (stripTags (stripHeaders t))) with
  | nil =>
    have hp : pipelineText t = [] := by
      unfold pipelineText
      rw [hT]
      rfl
    rw [hp]
    constructor
    · intro s hs
      rcases List.mem_cons.mp (show s ∈ ([[]] : List (List Char)) from hs) with h1 | h2
      · exact Or.inl h1
      · exact absurd h2 (List.not_mem_nil s)
    · exact trivial
  | cons T0 Ts =>
    have hTne : splitlines (blankSub true (stripTags (stripHeaders t))) ≠ [] := by
      rw [hT]
      exact List.cons_ne_nil _ _
    have hmemT : ∀ s ∈ splitlines (blankSub true (stripTags (stripHeaders t))),
        s ∈ splitOnNl (blankSub true (stripTags (stripHeaders t))) := by
      intro s hs
      rw [hS4]
      exact List.mem_append_left _ hs
    have hnl : ∀ s ∈ splitlines (blankSub true (stripTags (stripHeaders t))), '\n' ∉ s :=
      fun s hs => splitOnNl_seg_no_nl (hmemT s hs)
    have hjoin : splitOnNl (pipelineText t) =
        splitlines (blankSub true (stripTags (stripHeaders t))) := by
      show splitOnNl
          (joinSep ['\n'] (splitlines (blankSub true (stripTags (stripHeaders t))))) = _
      exact splitOnNl_joinNl hTne hnl
    rw [hjoin]
    constructor
    · intro s hs
      exact hinv.1 s (hmemT s hs)
    · have hna := hinv.2
      rw [hS4] at hna
      exact noAdjEmpty_append_left hna

theorem claim_C4_witness :
    (utf8Decode (utf8Encode "A\n \nB".toList) = some "A\n \nB".toList ∧
      onlyNl "A\n \nB".toList ∧
      parseSrt (utf8Encode "A\n \nB".toList) = some "A\n\nB".toList) ∧
    ((∀ s ∈ splitOnNl "A\n\nB".toList, goodSeg s) ∧ noAdjEmpty (splitOnNl "A\n\nB".toList)) :=
  ⟨⟨by decide, by unfold onlyNl; decide, by decide⟩,
   claim_C4 (utf8Encode "A\n \nB".toList) "A\n \nB".toList "A\n\nB".toList
     (by decide) (by unfold onlyNl; decide) (by decide)⟩

/-- Claim C5, counterexample: extraction is not idempotent.  On the bytes of
`"1\n00:00:00,000 --> 00:00:00,000<i>\nHi"` the first run removes only the
tag `<i>` (the header pattern needs the time-range line to be followed
directly by a newline, and `<i>` is in the way), which exposes a complete
header pair; the second run then deletes it, returning `"Hi"`. -/
theorem claim_C5_counterexample :
    parseSrt (utf8Encode "1\n00:00:00,000 --> 00:00:00,000<i>\nHi".toList) =
      some "1\n00:00:00,000 --> 00:00:00,000\nHi".toList ∧
    parseSrt (utf8Encode "1\n00:00:00,000 --> 00:00:00,000\nHi".toList) =
      some "Hi".toList ∧
    "1\n00:00:00,000 --> 00:00:00,000\nHi".toList ≠ "Hi".toList :=
  ⟨by decide, by decide, by decide⟩

/-- Claim C5, amended: extraction is idempotent on an output `S` provided
that no new header pattern and no new tag was exposed in it (the header and
tag passes leave `S` unchanged) and the decoded input had no line-boundary
characters other than `'\n'` (exotic boundaries are turned into newlines by
the splitlines-join step, which can expose new blank-line matches): then
re-running `parse_srt` on the UTF-8 encoding of `S` returns `S` itself —
the blank-line pass finds only empty matches in `S`, and splitting `S` at
its newlines and re-joining reproduces it. -/
theorem claim_C5 (bs : List Nat) (t S : List Char)
    (hdec : utf8Decode bs = some t) (ht : onlyNl t) (hout : parseSrt bs = some S)
    (hh : stripHeaders S = S) (htg : stripTags S = S) :
    parseSrt (utf8Encode S) = some S := by
  have hS : S = pipelineText t := by
    unfold parseSrt at hout
    rw [hdec] at hout
    exact (Option.some.inj hout).symm
  have hpar : parseSrt (utf8Encode S) = some (pipelineText S) := by
    unfold parseSrt
    rw [utf8Decode_encode_complete]
    rfl
  rw [hpar]
  refine congrArg some ?_
  have hps : pipelineText S = joinSep ['\n'] (splitlines (blankSub true S)) := by
    unfold pipelineText
    rw [hh, htg]
  have hgw : onlyNl (blankSub true (stripTags (stripHeaders t))) := by
    intro c hc hb
    exact ht c (stripHeaders_subset c (stripTags_subset c (blankSub_subset c hc))) hb
  have hinv := blankSub_segs_bound (stripTags (stripHeaders t)).length
    (stripTags (stripHeaders t)) true [] (le_refl _) (List.not_mem_nil _)
    (fun hne _ => absurd rfl hne) (fun _ hb => absurd hb (by decide))
  rw [List.nil_append] at hinv
  have hS4 := splitOnNl_splitlines hgw
  cases hT : splitlines (blankSub true (stripTags (stripHeaders t))) with
  | nil =>
    have hSnil : S = [] := by
      rw [hS]
      unfold pipelineText
      rw [hT]
      rfl
    rw [hps, hSnil]
    rfl
  | cons T0 Ts =>
    have hSj : S = joinSep ['\n'] (T0 :: Ts) := by
      rw [hS]
      unfold pipelineText
      rw [hT]
    have hmemT : ∀ s ∈ T0 :: Ts,
        s ∈ splitOnNl (blankSub true (stripTags (stripHeaders t))) := by
      intro s hs
      rw [hS4, hT]
      exact List.mem_append_left _ hs
    have hbf : ∀ s ∈ T0 :: Ts, ∀ c ∈ s, isLineBoundary c = false := by
      intro s hs
      have hmem : s ∈ splitlines (blankSub true (stripTags (stripHeaders t))) := by
        rw [hT]
        exact hs
      exact splitlines_seg_bnd_free_bound (blankSub true (stripTags (stripHeaders t))).length
        _ (le_refl _) s hmem
    have hnl : ∀ s ∈ T0 :: Ts, '\n' ∉ s := by
      intro s hs hmem
      exact absurd (hbf s hs '\n' hmem) (by decide)
    have hgood : ∀ s ∈ T0 :: Ts, goodSeg s := fun s hs => hinv.1 s (hmemT s hs)
    have hna : noAdjEmpty (T0 :: Ts) := by
      have h2 := hinv.2
      rw [hS4, hT] at h2
      exact noAdjEmpty_append_left h2
    have hlast : (T0 :: Ts).getLast? ≠ some [] := by
      by_cases hcond : (blankSub true (stripTags (stripHeaders t))).getLast? = some '\n' ∨
          blankSub true (stripTags (stripHeaders t)) = []
      · have h2 := hinv.2
        rw [hS4, hT, if_pos hcond] at h2
        exact noAdjEmpty_concat h2
      · intro hla
        have hT' : splitOnNl (blankSub true (stripTags (stripHeaders t))) = T0 :: Ts := by
          rw [hS4, hT, if_neg hcond, List.append_nil]
        rcases splitOnNl_last_nil (by rw [hT']; exact hla) with h1 | h2
        · exact hcond (Or.inr h1)
        · exact hcond (Or.inl h2)
    rw [hps, hSj, blankSub_joinNl_fix (T0 :: Ts) (fun s hs => ⟨hnl s hs, hgood s hs⟩) hna,
      splitlines_joinNl hbf hlast]

theorem claim_C5_witness :
    (utf8Decode (utf8Encode "Hello\n\nWorld".toList) = some "Hello\n\nWorld".toList ∧
      onlyNl "Hello\n\nWorld".toList ∧
      parseSrt (utf8Encode "Hello\n\nWorld".toList) = some "Hello\n\nWorld".toList ∧
      stripHeaders "Hello\n\nWorld".toList = "Hello\n\nWorld".toList ∧
      stripTags "Hello\n\nWorld".toList = "Hello\n\nWorld".toList) ∧
    parseSrt (utf8Encode "Hello\n\nWorld".toList) = some "Hello\n\nWorld".toList :=
  ⟨⟨by decide, by unfold onlyNl; decide, by decide, by decide, by decide⟩,
   claim_C5 (utf8Encode "Hello\n\nWorld".toList) "Hello\n\nWorld".toList
     "Hello\n\nWorld".toList (by decide) (by unfold onlyNl; decide) (by decide)
     (by decide) (by decide)⟩

/-- Claim C6: for every transcript `T` (any string whatsoever, and in
particular every non-empty one), `get_engineered_prompt` succeeds and
returns exactly the fixed template prefix, then `T` verbatim, then the fixed
template suffix; `T` is neither altered nor truncated, characters resembling
template delimiters included, and the surrounding template text is
unchanged. -/
theorem claim_C6 (T : String) (_h : T ≠ "") :
    get_engineered_prompt T = promptPre ++ T ++ promptPost ∧
    (get_engineered_prompt T).length = promptPre.length + T.length + promptPost.length ∧
    ∃ pre post : String, get_engineered_prompt T = pre ++ T ++ post := by
  refine ⟨rfl, ?_, promptPre, promptPost, rfl⟩
  show (promptPre ++ T ++ promptPost).length = _
  rw [String.length_append, String.length_append]

theorem claim_C6_witness :
    ("Hello world" : String) ≠ "" ∧
    get_engineered_prompt "Hello world" = promptPre ++ "Hello world" ++ promptPost :=
  ⟨by decide, (claim_C6 "Hello world" (by decide)).1⟩

/-- Claim C7: a transcript that is Python `None`, empty, or whitespace-only
(i.e. stripping it leaves nothing) makes the generate-button handler warn
and stop: no prompt is built (`get_engineered_prompt` is not invoked) and no
request to the text-generation API is attempted. -/
theorem claim_C7 (t : Option String)
    (h : t = none ∨ ∃ s, t = some s ∧ pyStrip s.toList = []) :
    handleGenerate t = GenAction.warn ∧ ∀ p, handleGenerate t ≠ GenAction.callApi p := by
  have hw : handleGenerate t = GenAction.warn := by
    rcases h with rfl | ⟨s, rfl, hs⟩
    · rfl
    · show (if s.toList.isEmpty || (pyStrip s.toList).isEmpty then GenAction.warn
        else GenAction.callApi (get_engineered_prompt s)) = GenAction.warn
      rw [hs]
      simp
  exact ⟨hw, fun p hp => by rw [hw] at hp; cases hp⟩

theorem claim_C7_witness :
    (some "  \t" = none ∨ ∃ s, some "  \t" = some s ∧ pyStrip s.toList = []) ∧
    handleGenerate (some "  \t") = GenAction.warn :=
  ⟨Or.inr ⟨"  \t", rfl, by decide⟩,
   (claim_C7 (some "  \t") (Or.inr ⟨"  \t", rfl, by decide⟩)).1⟩

/-- Claim C8: for every byte sequence that is not valid UTF-8 — not the
UTF-8 encoding of any text — `parse_srt` takes the exception path and
returns `None`: no transcript, not even a partial one, is produced. -/
theorem claim_C8 (bs : List Nat) (h : ¬ ∃ cs : List Char, utf8Encode cs = bs) :
    parseSrt bs = none ∧ ∀ t, parseSrt bs ≠ some t := by
  have hnone : parseSrt bs = none := by
    cases hd : utf8Decode bs with
    | none =>
      unfold parseSrt
      rw [hd]
      rfl
    | some t => exact absurd ⟨t, utf8Decode_encode hd⟩ h
  exact ⟨hnone, fun t ht => by rw [hnone] at ht; cases ht⟩

theorem claim_C8_witness :
    (¬ ∃ cs : List Char, utf8Encode cs = [0xFF]) ∧ parseSrt [0xFF] = none :=
  ⟨fun ⟨cs, hc⟩ => utf8Encode_ne_ff cs hc,
   (claim_C8 [0xFF] (fun ⟨cs, hc⟩ => utf8Encode_ne_ff cs hc)).1⟩

/-- Claim C9: both core components are deterministic pure functions of their
argument — two runs of `parse_srt` on the same bytes return the same value,
and two runs of `get_engineered_prompt` on the same transcript return the
same prompt.  (In this embedding both are Lean functions of exactly their
argument, so the results of two runs are definitionally equal.) -/
theorem claim_C9 :
    (∀ (bs : List Nat) (r₁ r₂ : Option (List Char)),
        parseSrt bs = r₁ → parseSrt bs = r₂ → r₁ = r₂) ∧
    (∀ (t p₁ p₂ : String),
        get_engineered_prompt t = p₁ → get_engineered_prompt t = p₂ → p₁ = p₂) :=
  ⟨fun _ _ _ h₁ h₂ => by rw [← h₁, ← h₂],
   fun _ _ _ h₁ h₂ => by rw [← h₁, ← h₂]⟩

theorem claim_C9_witness :
    parseSrt [0x61] = some ['a'] ∧
    (some ['a'] : Option (List Char)) = some ['a'] ∧
    (promptPre ++ "T" ++ promptPost : String) = promptPre ++ "T" ++ promptPost :=
  ⟨by decide, claim_C9.1 [0x61] (some ['a']) (some ['a']) (by decide) (by decide),
   claim_C9.2 "T" (promptPre ++ "T" ++ promptPost) (promptPre ++ "T" ++ promptPost) rfl rfl⟩

/-- Claim C10: in the markup-removal step, a removed span starts at a `<`,
runs through at least one character none of which is `>`, and ends at the
nearest following `>` — also across line boundaries, deleting dialogue text
from several lines (`"a<i\nb>c"` becomes `"ac"`); the two-character sequence
`<>` is never removed (the scan passes over it), and a `<` that is never
followed by a `>` in the rest of the document is kept. -/
theorem claim_C10 :
    (∀ mid rest : List Char, mid ≠ [] → '>' ∉ mid →
        stripTags ('<' :: (mid ++ '>' :: rest)) = stripTags rest) ∧
    stripTags "a<i\nb>c".toList = "ac".toList ∧
    (∀ rest : List Char, stripTags ('<' :: '>' :: rest) = '<' :: '>' :: stripTags rest) ∧
    (∀ l₁ l₂ : List Char, '>' ∉ l₂ → ∃ r, stripTags (l₁ ++ '<' :: l₂) = r ++ '<' :: l₂) := by
  refine ⟨?_, by decide, ?_, ?_⟩
  · intro mid rest hne hgt
    rw [stripTags_eq, tagMatch_of_span hne hgt]
  · intro rest
    rw [stripTags_eq, tagMatch_lt_gt]
    show '<' :: stripTags ('>' :: rest) = _
    rw [stripTags_eq, tagMatch_none_of_not_lt (l := '>' :: rest) (by simp)]
  · exact fun l₁ l₂ h => stripTags_unclosed_bound l₁.length l₁ l₂ (le_refl _) h

theorem claim_C10_witness :
    ((['i'] : List Char) ≠ [] ∧ '>' ∉ (['i'] : List Char)) ∧
    stripTags ('<' :: (['i'] ++ '>' :: ['x'])) = stripTags ['x'] ∧
    ('>' ∉ (['a'] : List Char)) ∧
    (∃ r, stripTags (['b'] ++ '<' :: ['a']) = r ++ '<' :: ['a']) :=
  ⟨⟨by decide, by decide⟩,
   claim_C10.1 ['i'] ['x'] (by decide) (by decide),
   by decide,
   claim_C10.2.2.2 ['b'] ['a'] (by decide)⟩

end SrtApp
